import Mathlib

/-!
Verification of the two algorithmic components of the Reqify repository:
the multi-rater consensus aggregator (`combine_human_assessments.py`) and
the fuzzy quote verifier (`verify_quotes.py`).

Python strings are modelled as `List Char` (`Str`); Python `int` scores are
`Nat` (all scores involved are non-negative); fallible code is modelled with
`Except`/`Option`.  The two fuzzy-similarity primitives of the external
`thefuzz` library (`fuzz.ratio` and `fuzz.partial_ratio`) are not part of the
repository and are taken as function parameters of the embedded code.
-/

/-- Python `str` values, modelled as lists of characters. -/
abbrev Str : Type := List Char

/-- Whitespace test used by Python's `str.strip()`, restricted to the
character repertoire the repository's latin-1 decoded data can contain
(ASCII whitespace, NEL and NBSP).  -/
def pySpace (c : Char) : Bool :=
  c = ' ' || c = '\t' || c = '\n' || c = '\x0b' || c = '\x0c' || c = '\x0d' ||
  c = '\x85' || c = '\xa0'

/-- Python `s.strip()`: drop leading and trailing whitespace. -/
def pyStrip (s : Str) : Str :=
  ((s.dropWhile pySpace).reverse.dropWhile pySpace).reverse

/-- Python `s.split(',')` (`combine_human_assessments.py`, line 73):
split on every comma, keeping empty pieces; `"".split(',') == [""]`. -/
def pySplitComma : Str → List Str
  | [] => [[]]
  | c :: rest =>
    if c = ',' then [] :: pySplitComma rest
    else
      match pySplitComma rest with
      | [] => [[c]]
      | p :: ps => (c :: p) :: ps

/-- Python `",".join(parts)` (`combine_human_assessments.py`, line 74). -/
def joinComma : List Str → Str
  | [] => []
  | [p] => p
  | p :: ps => p ++ ',' :: joinComma ps

/-- Boolean lexicographic strict comparison of lists, given a strict
comparison on elements; this is exactly how Python compares two strings
(and two tuples). -/
def lexLtBy (lt : α → α → Bool) : List α → List α → Bool
  | [], [] => false
  | [], _ :: _ => true
  | _ :: _, [] => false
  | a :: as, b :: bs =>
    if lt a b then true else if lt b a then false else lexLtBy lt as bs

/-- Python `<` on two strings: lexicographic by code point. -/
def strLt (a b : Str) : Bool :=
  lexLtBy (fun c d => decide (c < d)) a b

/-- The (non-strict) order in which Python's `sorted` arranges strings:
`a` may precede `b` iff `b < a` fails. -/
def strOrd (a b : Str) : Prop := strLt b a = false

instance : DecidableRel strOrd :=
  fun a b => inferInstanceAs (Decidable (strLt b a = false))

/-- Python `sorted` on a list of strings.  `sorted` is a stable sort
w.r.t. `<`; since equal-comparing strings are identical, its output is the
unique `strOrd`-sorted permutation of the input, which insertion sort
computes. -/
def pySorted (l : List Str) : List Str :=
  List.insertionSort strOrd l

/-- Embedding of `normalize_cell_value` (`combine_human_assessments.py`,
lines 65-74): split on commas, strip each part, drop empty parts, sort,
rejoin with commas; blank cells normalize to the empty string. -/
def normalize_cell_value (value : Str) : Str :=
  if pyStrip value = [] then []
  else joinComma (pySorted (((pySplitComma value).map pyStrip).filter (· ≠ [])))

example : pySplitComma " B33, A12 ,A12".toList =
    [" B33".toList, " A12 ".toList, "A12".toList] := by decide

example : normalize_cell_value " B33, A12 ,A12".toList = "A12,A12,B33".toList := by
  decide

example : normalize_cell_value "  ".toList = [] := by decide
example : normalize_cell_value ",,".toList = [] := by decide

/-- Helper for `dedupFirst`: keep the elements not seen before, in order. -/
def dedupFirstAux [DecidableEq α] (seen : List α) : List α → List α
  | [] => []
  | a :: l =>
    if a ∈ seen then dedupFirstAux seen l
    else a :: dedupFirstAux (a :: seen) l

/-- First-occurrence deduplication, the iteration order of a Python
`dict`/`Counter`/`set` built by successive insertion. -/
def dedupFirst [DecidableEq α] (l : List α) : List α := dedupFirstAux [] l

/-- Embedding of `Counter(cell_values).most_common(1)`
(`combine_human_assessments.py`, lines 198-199).  `Counter` iterates its
keys in first-insertion order and `most_common(1)` picks the maximal count,
breaking ties by that order; both are reproduced exactly by scanning the
first occurrences and keeping a strictly greater count only. -/
def mostCommon1 (l : List Str) : Option (Str × Nat) :=
  match dedupFirst l with
  | [] => none
  | v :: vs =>
    some (vs.foldl (fun b w => if b.2 < l.count w then (w, l.count w) else b)
      (v, l.count v))

/-- Python dict lookup on an insertion list of pairs: the value of the last
matching insertion (later `d[k] = v` assignments overwrite earlier ones). -/
def dget [DecidableEq κ] (m : List (κ × β)) (k : κ) : Option β :=
  m.foldl (fun acc p => if p.1 = k then some p.2 else acc) none

/-- A composite key: `(Interview ID, Scenario)` or
`(Interview ID, Scenario, Iteration)`, as a list of its components. -/
abbrev Key : Type := List Str

/-- A parsed CSV row: the `row_dict` of `load_and_clean_csv`, an
insertion-ordered association of header name to stripped cell value. -/
abbrev Row : Type := List (Str × Str)

/-- The data of one rater file as `load_and_clean_csv` returns it:
a key-to-row mapping plus the cleaned header list. -/
abbrev LoadedFile : Type := List (Key × Row) × List Str

/-- Header name `Interview ID`. -/
def interviewCol : Str := "Interview ID".toList

/-- Header name `Scenario`. -/
def scenarioCol : Str := "Scenario".toList

/-- Header name `Iteration`. -/
def iterationCol : Str := "Iteration".toList

/-- The `key_cols_names` list of `load_and_clean_csv`
(`combine_human_assessments.py`, lines 23-26): `Iteration` is added only
for the `meta_human` target. -/
def key_cols_names (isMeta : Bool) : List Str :=
  if isMeta then [interviewCol, scenarioCol, iterationCol]
  else [interviewCol, scenarioCol]

/-- Strip all leading byte-order marks from the first header cell
(`header[0].lstrip('﻿')`, line 39). -/
def stripBOMHead : List Str → List Str
  | [] => []
  | h :: hs => h.dropWhile (· = '﻿') :: hs

/-- The row loop of `load_and_clean_csv` (lines 45-57), modelled in
`Except`: a row shorter than the header is skipped; a row longer than the
header makes `clean_header[i]` raise `IndexError`, which aborts the whole
file; otherwise the row dict is built by pairing each header name with the
stripped cell value and the row is inserted under its composite key
(insertion order kept, so a later row overwrites an earlier one with the
same key under `dget`). -/
def processRows (hdr : List Str) (keyCols : List Str) :
    List (List Str) → Except Unit (List (Key × Row))
  | [] => .ok []
  | row :: rest =>
    if row.length < hdr.length then processRows hdr keyCols rest
    else if hdr.length < row.length then .error ()
    else
      let rd : Row := hdr.zip (row.map pyStrip)
      match keyCols.mapM (fun c => dget rd c) with
      | none => .error ()
      | some key => do
        let tail ← processRows hdr keyCols rest
        return (key, rd) :: tail

/-- Embedding of `load_and_clean_csv` (`combine_human_assessments.py`,
lines 10-63) from the point where the file's delimited rows are in hand
(delimiter detection and latin-1 decoding cannot fail and are abstracted
away).  An empty file, a header missing a key column
(`clean_header.index` raises `ValueError`) or a row error all yield the
`({}, [])` of the `except` handler. -/
def load_and_clean_csv (isMeta : Bool) (rawRows : List (List Str)) : LoadedFile :=
  let keyCols := key_cols_names isMeta
  match rawRows with
  | [] => ([], [])
  | header :: rows =>
    let clean_header := (stripBOMHead header).map pyStrip
    if keyCols.all (· ∈ clean_header) then
      match processRows clean_header keyCols rows with
      | .ok m => (m, clean_header)
      | .error _ => ([], [])
    else ([], [])

/-- The agreement threshold `math.ceil((num_researchers * 2) / 3)`
(`combine_human_assessments.py`, line 126).  For the `int` magnitudes
involved the float division is exact enough that the ceiling equals the
natural-number ceiling division. -/
def agreement_threshold (k : Nat) : Nat := (2 * k + 2) / 3

/-- The normalized cell values collected for one `(key, header)` pair, one
per rater file in file order (lines 187-192): a rater without a row for the
key, or whose row lacks the column, contributes the empty string. -/
def cell_values (loaded : List LoadedFile) (key : Key) (h : Str) : List Str :=
  loaded.map (fun lf =>
    normalize_cell_value (match dget lf.1 key with
      | some row => (dget row h).getD []
      | none => []))

/-- The Python token set `set(v.split(',')) if v else set()` of a
normalized cell value (lines 205-207, 213-214). -/
def tokSet (v : Str) : Finset Str :=
  if v = [] then ∅ else (pySplitComma v).toFinset

/-- The per-cell consensus step of `create_combined_analysis`
(lines 194-215).  Returns the written cell value together with the
increments of the mismatch, removed-entries and total-entries counters. -/
def processCell (t : Nat) (cvs : List Str) : Str × Nat × Nat × Nat :=
  let totalInc := (cvs.map (fun v => if v ≠ [] then (pySplitComma v).length else 0)).sum
  let best := (mostCommon1 cvs).getD ([], 0)
  if t ≤ best.2 then
    (best.1, 0, (cvs.map (fun v => ((tokSet v) \ (tokSet best.1)).card)).sum, totalInc)
  else
    ([], 1, (cvs.map (fun v => (tokSet v).card)).sum, totalInc)

example :
    processCell 2 ["B1".toList, "B1".toList, "B2".toList] =
      ("B1".toList, 0, 1, 3) := by decide

/-- The row sorting key of `create_combined_analysis` (lines 163-174):
`(key[1], key[0], key[2])` for the meta variant, `(key[1], key[0])`
otherwise, i.e. Scenario first, then Interview ID, then Iteration. -/
def sortKeyOf (isMeta : Bool) (k : Key) : List Str :=
  if isMeta then [k.getD 1 [], k.getD 0 [], k.getD 2 []]
  else [k.getD 1 [], k.getD 0 []]

/-- Python `<` on two key tuples of strings. -/
def tupLt (a b : List Str) : Bool :=
  lexLtBy (fun s t => strLt s t) a b

/-- The order in which `sorted(all_keys, key=sort_key_func)` arranges two
keys: `a` may precede `b` iff the sort key of `b` is not below that of
`a`. -/
def keyRel (isMeta : Bool) (a b : Key) : Prop :=
  tupLt (sortKeyOf isMeta b) (sortKeyOf isMeta a) = false

instance (isMeta : Bool) : DecidableRel (keyRel isMeta) :=
  fun a b =>
    inferInstanceAs (Decidable (tupLt (sortKeyOf isMeta b) (sortKeyOf isMeta a) = false))

/-- The `sorted_keys` list (line 174).  `all_keys` is a Python set; the
sort-key map is injective on composite keys, so the sorted output does not
depend on the set's iteration order and insertion sort of any enumeration
of the set computes it. -/
def keySorted (isMeta : Bool) (keys : List Key) : List Key :=
  List.insertionSort (keyRel isMeta) keys

/-- Union of the keys of all loaded rater files, determinized to
first-seen order (`all_keys`, lines 111, 123). -/
def allKeysOf (loaded : List LoadedFile) : List Key :=
  dedupFirst ((loaded.map (fun lf => lf.1.map Prod.fst)).flatten)

/-- Union of all observed headers (`all_headers_set`, lines 110, 122),
determinized to first-seen order. -/
def allHeadersOf (loaded : List LoadedFile) : List Str :=
  dedupFirst ((loaded.map Prod.snd).flatten)

/-- The master header list: the header order of the first file that
provided one (lines 112-119). -/
def masterHeadersOf (loaded : List LoadedFile) : List Str :=
  ((loaded.map Prod.snd).find? (fun h => !h.isEmpty)).getD []

/-- The final ordered header list (lines 141-155): the master order plus
any remaining observed header appended at the end; when no file provided a
header order, the fallback sorts key columns first (in `key_cols` order)
and the remaining headers by name. -/
def finalHeadersOf (isMeta : Bool) (loaded : List LoadedFile) : List Str :=
  let keyCols := key_cols_names isMeta
  let master := masterHeadersOf loaded
  let alls := allHeadersOf loaded
  if master = [] then
    keyCols.filter (· ∈ alls) ++ pySorted (alls.filter (· ∉ keyCols))
  else master ++ alls.filter (· ∉ master)

/-- The output of one aggregation run: everything
`create_combined_analysis` writes to the combined CSV plus the three
summary counters. -/
structure RunResult where
  headers : List Str
  rows : List (Key × List (Str × Str))
  mismatches : Nat
  removed : Nat
  total : Nat
  deriving DecidableEq

/-- Sum of `f` over a list, in list order. -/
def sumOver (l : List α) (f : α → Nat) : Nat := (l.map f).sum

/-- The non-key cells of the combined row for one key, in final header
order (lines 183-215; key columns are skipped). -/
def rowCells (loaded : List LoadedFile) (t : Nat) (nonKey : List Str) (k : Key) :
    List (Str × Str) :=
  nonKey.map (fun h => (h, (processCell t (cell_values loaded k h)).1))

/-- Embedding of `create_combined_analysis`
(`combine_human_assessments.py`, lines 76-241) over an abstract
filesystem: `dirExists` models `os.path.isdir(RESULTS_DIR)` and `files`
holds the delimited rows of each rater file found (in `os.listdir`
order).  Returns `none` exactly when the run aborts before writing the
output file.  (A final `IOError` on write only affects the summary print
and is not modelled.) -/
def create_combined_analysis (isMeta : Bool) (dirExists : Bool)
    (files : List (List (List Str))) : Option RunResult :=
  if !dirExists then none
  else if files.length < 3 then none
  else
    let loaded := files.map (load_and_clean_csv isMeta)
    let allKeys := allKeysOf loaded
    if allKeys = [] then none
    else
      let t := agreement_threshold files.length
      let keyCols := key_cols_names isMeta
      let finalHeaders := finalHeadersOf isMeta loaded
      let nonKey := finalHeaders.filter (· ∉ keyCols)
      let sortedKeys := keySorted isMeta allKeys
      some
        { headers := finalHeaders
          rows := sortedKeys.map (fun k => (k, rowCells loaded t nonKey k))
          mismatches := sumOver sortedKeys (fun k => sumOver nonKey
            (fun h => (processCell t (cell_values loaded k h)).2.1))
          removed := sumOver sortedKeys (fun k => sumOver nonKey
            (fun h => (processCell t (cell_values loaded k h)).2.2.1))
          total := sumOver sortedKeys (fun k => sumOver nonKey
            (fun h => (processCell t (cell_values loaded k h)).2.2.2)) }

/-- Python slicing `l[i:]` for an `int` index `i`: a negative index counts
from the end (clamped to the start), as `List.drop` with saturating
subtraction reproduces. -/
def pyDropFrom (i : Int) (l : List α) : List α :=
  if 0 ≤ i then l.drop i.toNat else l.drop (l.length - (-i).toNat)

/-- Python `"..." in quote`: three consecutive periods occur somewhere. -/
def containsDots : Str → Bool
  | [] => false
  | '.' :: '.' :: '.' :: _ => true
  | _ :: rest => containsDots rest

/-- Python `quote.split("...")`: split on each leftmost occurrence of
three consecutive periods, keeping empty pieces. -/
def splitDots : Str → List Str
  | [] => [[]]
  | '.' :: '.' :: '.' :: rest => [] :: splitDots rest
  | c :: rest =>
    match splitDots rest with
    | [] => [[c]]
    | p :: ps => (c :: p) :: ps

/-- The fragment list `[p.strip() for p in quote.split("...") if p.strip()]`
(`verify_quotes.py`, line 68). -/
def fragmentsOf (quote : Str) : List Str :=
  ((splitDots quote).map pyStrip).filter (· ≠ [])

/-- The minimum similarity score for a match (`verify_quotes.py`, line 31). -/
def SIMILARITY_THRESHOLD : Nat := 80

/-- Embedding of `find_best_substring_match` (`verify_quotes.py`,
lines 33-56), parameterized by the similarity function `r` standing for
`fuzz.ratio`.  Slides a window of the query's length across the text,
keeping the first window with a strictly greater score; returns
`(best_score, best_index, best_index + len(query))` with `best_index = -1`
when no window scored above 0, and `(0, -1, -1)` for an empty or too-long
query. -/
def find_best_substring_match (r : Str → Str → Nat) (query text : Str) :
    Nat × Int × Int :=
  if query = [] ∨ text = [] ∨ text.length < query.length then (0, -1, -1)
  else
    let qlen := query.length
    let best := (List.range (text.length - qlen + 1)).foldl
      (fun (b : Nat × Int) i =>
        let score := r query ((text.drop i).take qlen)
        if b.1 < score then (score, (i : Int)) else b)
      (0, -1)
    (best.1, best.2, best.2 + qlen)

/-- The sequential fragment loop of `calculate_fuzzy_score`
(`verify_quotes.py`, lines 78-95): the search area is the transcript slice
from the running start index; a fragment scoring below the threshold ends
the quote with that score; otherwise the start index advances by the match
end within the slice.  The final `int(sum/len)` on non-negative `int`
scores is floor division. -/
def seqLoop (r : Str → Str → Nat) (transcript : Str) :
    List Str → Int → List Nat → Nat
  | [], _, scores => scores.sum / scores.length
  | part :: rest, start, scores =>
    let m := find_best_substring_match r part (pyDropFrom start transcript)
    if m.1 < SIMILARITY_THRESHOLD then m.1
    else seqLoop r transcript rest (start + m.2.2) (scores ++ [m.1])

/-- Embedding of `calculate_fuzzy_score` (`verify_quotes.py`,
lines 58-95), parameterized by `pr` for `fuzz.partial_ratio` and `r` for
`fuzz.ratio`. -/
def calculate_fuzzy_score (pr r : Str → Str → Nat) (quote transcript : Str) : Nat :=
  if !containsDots quote then pr quote transcript
  else
    match fragmentsOf quote with
    | [] => 0
    | [p] => pr p transcript
    | p₁ :: p₂ :: ps => seqLoop r transcript (p₁ :: p₂ :: ps) 0 []

/-- Replace every occurrence of the character `a` by `b`
(Python `s.replace(a, b)` for single characters). -/
def replaceChar (a b : Char) (s : Str) : Str :=
  s.map (fun c => if c = a then b else c)

/-- Named HTML character references, modelling the entity table of the
Python standard library's `html.unescape` on the references the
repository's CSV exports can contain. -/
def entityTable : List (Str × Char) :=
  [("amp;".toList, '&'), ("lt;".toList, '<'), ("gt;".toList, '>'),
   ("quot;".toList, '"'), ("apos;".toList, '\''), ("nbsp;".toList, '\xa0')]

/-- Boolean prefix test on character lists. -/
def hasPrefixL : Str → Str → Bool
  | [], _ => true
  | _ :: _, [] => false
  | a :: as, b :: bs => a = b && hasPrefixL as bs

/-- Fueled scanner behind `html_unescape`: each step consumes at least one
character, so fuel equal to the length never runs out. -/
def htmlDecodeFuel : Nat → Str → Str
  | 0, s => s
  | _ + 1, [] => []
  | fuel + 1, '&' :: rest =>
    match entityTable.find? (fun e => hasPrefixL e.1 rest) with
    | some e => e.2 :: htmlDecodeFuel fuel (rest.drop e.1.length)
    | none => '&' :: htmlDecodeFuel fuel rest
  | fuel + 1, c :: rest => c :: htmlDecodeFuel fuel rest

/-- Modelled from the Python standard library function `html.unescape`
used by `normalize_text` (`verify_quotes.py`, line 100), which is not part
of the repository: a string containing no ampersand is returned unchanged
(CPython short-circuits on `'&' not in s`); otherwise character references
are decoded left to right. -/
def html_unescape (s : Str) : Str :=
  if '&' ∈ s then htmlDecodeFuel s.length s else s

/-- The `quote_pairs` list of `normalize_text` (`verify_quotes.py`,
line 101): straight double, straight single, curly double, curly single,
guillemets. -/
def quote_pairs : List (Char × Char) :=
  [('"', '"'), ('\'', '\''), ('“', '”'), ('‘', '’'),
   ('«', '»')]

/-- Python `s[1:-1]`. -/
def dropEnds (s : Str) : Str := (s.drop 1).dropLast

/-- One pass of the inner `for left, right in quote_pairs` loop of
`normalize_text` (lines 104-106): each pair in turn strips one layer (and
re-strips whitespace) when the current string starts with its left and
ends with its right character; the flag records whether any pair fired. -/
def quotePass : List (Char × Char) → Str → Str × Bool
  | [], s => (s, false)
  | (l, r) :: ps, s =>
    if s.head? = some l ∧ s.getLast? = some r then
      ((quotePass ps (pyStrip (dropEnds s))).1, true)
    else quotePass ps s

/-- Fueled form of the `while changed and len(s) >= 2` loop of
`normalize_text` (lines 102-106).  Every pass that reports a change
shortens the string, so fuel `len(s) + 1` never runs out
(`quoteLoopFuel_eq` below). -/
def quoteLoopFuel : Nat → Str → Str
  | 0, s => s
  | fuel + 1, s =>
    if 2 ≤ s.length then
      match quotePass quote_pairs s with
      | (s', true) => quoteLoopFuel fuel s'
      | (s', false) => s'
    else s

/-- The quote-stripping loop of `normalize_text`. -/
def quoteLoop (s : Str) : Str := quoteLoopFuel (s.length + 1) s

/-- Embedding of `normalize_text` (`verify_quotes.py`, lines 98-108):
decode HTML entities, delete carriage returns, turn newlines and
non-breaking spaces into spaces, strip, repeatedly strip matching outer
quotation-mark pairs, then canonicalize curly quotation marks to straight
ones. -/
def normalize_text (cell : Str) : Str :=
  if cell = [] then []
  else
    let s := html_unescape cell
    let s := pyStrip (replaceChar '\xa0' ' ' (replaceChar '\n' ' '
      (s.filter (· ≠ '\x0d'))))
    let s := quoteLoop s
    replaceChar '‘' '\'' (replaceChar '’' '\''
      (replaceChar '“' '"' (replaceChar '”' '"' s)))

/-- The window of length `len` of the transcript starting at absolute
position `j` (specification reading of §4.2's sliding window). -/
def windowAt (t : Str) (len j : Nat) : Str := (t.drop j).take len

/-- Specification reading: the absolute start positions of all windows of
a fragment's length lying entirely in the transcript slice from the cursor
onward. -/
def candidatePositions (t : Str) (flen cursor : Nat) : List Nat :=
  if t.length - cursor < flen then []
  else (List.range (t.length - cursor - flen + 1)).map (cursor + ·)

/-- Specification reading: the best score over all candidate windows for a
fragment, together with the absolute start of the earliest window
attaining it (ties and the no-window case keep the pair `(0, cursor)`,
whose position component is never used because a score of 0 fails the
threshold). -/
def fragmentBest (r : Str → Str → Nat) (t f : Str) (cursor : Nat) : Nat × Nat :=
  (candidatePositions t f.length cursor).foldl
    (fun b j =>
      let sc := r f (windowAt t f.length j)
      if b.1 < sc then (sc, j) else b)
    (0, cursor)

/-- Specification reading of the ordered sequential ellipsis matching of
§4.2: fragments are matched strictly in order, each against windows taken
from the cursor onward only; a fragment whose best window scores below the
threshold ends the quote with that score, otherwise the cursor advances to
the end of the matched window and, when all fragments pass, the score is
the floor of the mean of the fragment scores. -/
def specSeqMatch (r : Str → Str → Nat) (t : Str) :
    List Str → Nat → List Nat → Nat
  | [], _, scores => scores.sum / scores.length
  | f :: fs, cursor, scores =>
    let best := fragmentBest r t f cursor
    if best.1 < SIMILARITY_THRESHOLD then best.1
    else specSeqMatch r t fs (best.2 + f.length) (scores ++ [best.1])

/-- Specification reading of the combined-output row order: ascending by
Scenario (key component 1), then Interview ID (component 0), then
Iteration (component 2, meta variant only). -/
def specKeyLe (isMeta : Bool) (a b : Key) : Prop :=
  strLt (a.getD 1 []) (b.getD 1 []) = true ∨
  (a.getD 1 [] = b.getD 1 [] ∧
    (strLt (a.getD 0 []) (b.getD 0 []) = true ∨
      (a.getD 0 [] = b.getD 0 [] ∧
        (isMeta = true → strLt (b.getD 2 []) (a.getD 2 []) = false))))

/-- A concrete similarity function (100 on equal strings, 0 otherwise)
used to instantiate the abstract `fuzz.ratio` parameter in witnesses. -/
def eqScore (q w : Str) : Nat := if q = w then 100 else 0

/-- A concrete similarity function returning the query's length, used to
exhibit that the fallback path applies the partial-ratio computation to
the surviving fragment rather than to the whole quote. -/
def lenScore (q _t : Str) : Nat := q.length

example : normalize_text "  \"hello\"  ".toList = "hello".toList := by decide
example :
    normalize_text "“x\"".toList = "\"x\"".toList := by decide
example :
    normalize_text (normalize_text "“x\"".toList) = "x".toList := by decide


/-- A sample rater-file header used by concrete witnesses. -/
def sampleHeader : List Str := [interviewCol, scenarioCol, "R.SA.1".toList]

/-- Three sample rater files realizing the spec's end-to-end scenario:
one row each for key `("I1","S1")` with cells `B1`, `B1`, `B2`. -/
def sampleFiles : List (List (List Str)) :=
  [[sampleHeader, ["I1".toList, "S1".toList, "B1".toList]],
   [sampleHeader, ["I1".toList, "S1".toList, "B1".toList]],
   [sampleHeader, ["I1".toList, "S1".toList, "B2".toList]]]

/-- The sample composite key `("I1", "S1")`. -/
def sampleKey : Key := ["I1".toList, "S1".toList]

/-- The sample non-key column `R.SA.1`. -/
def sampleCol : Str := "R.SA.1".toList

/-- A malformed rater file: a well-formed data row followed by a data row
with more fields than the header row. -/
def overlongFile : List (List Str) :=
  [sampleHeader,
   ["I1".toList, "S1".toList, "B1".toList],
   ["I2".toList, "S1".toList, "B1".toList, "EXTRA".toList]]

/-! ### Order lemmas for the Boolean lexicographic comparisons -/

theorem lexLtBy_asymm {lt : α → α → Bool}
    (hA : ∀ a b, lt a b = true → lt b a = false) :
    ∀ x y, lexLtBy lt x y = true → lexLtBy lt y x = false := by
  intro x
  induction x with
  | nil => intro y h; cases y <;> simp [lexLtBy] at h ⊢
  | cons a as ih =>
    intro y h
    cases y with
    | nil => simp [lexLtBy] at h
    | cons b bs =>
      simp only [lexLtBy] at h ⊢
      by_cases hab : lt a b = true
      · have hba := hA a b hab
        simp [hab, hba] at h ⊢
      · by_cases hba : lt b a = true
        · simp [hab, hba] at h
        · simp only [Bool.not_eq_true] at hab hba
          simp [hab, hba] at h ⊢
          exact ih bs h

theorem lexLtBy_conn {lt : α → α → Bool}
    (hC : ∀ a b, lt a b = false → lt b a = false → a = b) :
    ∀ x y, lexLtBy lt x y = false → lexLtBy lt y x = false → x = y := by
  intro x
  induction x with
  | nil => intro y h1 _; cases y <;> simp [lexLtBy] at h1 ⊢
  | cons a as ih =>
    intro y h1 h2
    cases y with
    | nil => simp [lexLtBy] at h2
    | cons b bs =>
      simp only [lexLtBy] at h1 h2
      by_cases hab : lt a b = true
      · simp [hab] at h1
      · by_cases hba : lt b a = true
        · simp [hba] at h2
        · simp only [Bool.not_eq_true] at hab hba
          simp [hab, hba] at h1 h2
          have := hC a b hab hba
          subst this
          rw [ih bs h1 h2]

theorem lexLtBy_trans {lt : α → α → Bool}
    (hT : ∀ a b c, lt a b = true → lt b c = true → lt a c = true)
    (hC : ∀ a b, lt a b = false → lt b a = false → a = b) :
    ∀ x y z, lexLtBy lt x y = true → lexLtBy lt y z = true →
      lexLtBy lt x z = true := by
  intro x
  induction x with
  | nil =>
    intro y z h1 h2
    cases y with
    | nil => simp [lexLtBy] at h1
    | cons b bs =>
      cases z with
      | nil => simp [lexLtBy] at h2
      | cons c cs => simp [lexLtBy]
  | cons a as ih =>
    intro y z h1 h2
    cases y with
    | nil => simp [lexLtBy] at h1
    | cons b bs =>
      cases z with
      | nil => simp [lexLtBy] at h2
      | cons c cs =>
        simp only [lexLtBy] at h1 h2 ⊢
        by_cases hab : lt a b = true
        · by_cases hbc : lt b c = true
          · simp [hT a b c hab hbc]
          · by_cases hcb : lt c b = true
            · simp [hbc, hcb] at h2
            · simp only [Bool.not_eq_true] at hbc hcb
              have := hC b c hbc hcb
              subst this
              simp [hab]
        · by_cases hba : lt b a = true
          · simp [hab, hba] at h1
          · simp only [Bool.not_eq_true] at hab hba
            have := hC a b hab hba
            subst this
            simp [hab] at h1 ⊢
            by_cases hbc : lt a c = true
            · simp [hbc]
            · by_cases hcb : lt c a = true
              · simp [hbc, hcb] at h2
              · simp only [Bool.not_eq_true] at hbc hcb
                have := hC a c hbc hcb
                subst this
                simp [hbc] at h2 ⊢
                exact ih bs cs h1 h2

theorem charLt_asymm : ∀ a b : Char, decide (a < b) = true → decide (b < a) = false := by
  intro a b h
  simp only [decide_eq_true_eq] at h
  simpa using lt_asymm h

theorem charLt_trans :
    ∀ a b c : Char, decide (a < b) = true → decide (b < c) = true →
      decide (a < c) = true := by
  intro a b c h1 h2
  simp only [decide_eq_true_eq] at h1 h2 ⊢
  exact lt_trans h1 h2

theorem charLt_conn :
    ∀ a b : Char, decide (a < b) = false → decide (b < a) = false → a = b := by
  intro a b h1 h2
  simp only [decide_eq_false_iff_not] at h1 h2
  exact le_antisymm (not_lt.1 h2) (not_lt.1 h1)

theorem strLt_asymm : ∀ a b : Str, strLt a b = true → strLt b a = false :=
  lexLtBy_asymm charLt_asymm

theorem strLt_trans :
    ∀ a b c : Str, strLt a b = true → strLt b c = true → strLt a c = true :=
  lexLtBy_trans charLt_trans charLt_conn

theorem strLt_conn : ∀ a b : Str, strLt a b = false → strLt b a = false → a = b :=
  lexLtBy_conn charLt_conn

theorem strOrd_total : ∀ a b : Str, strOrd a b ∨ strOrd b a := by
  intro a b
  by_cases h : strLt b a = true
  · exact Or.inr (strLt_asymm b a h)
  · exact Or.inl (by simpa [strOrd] using h)

theorem strOrd_trans : ∀ a b c : Str, strOrd a b → strOrd b c → strOrd a c := by
  intro a b c h1 h2
  by_cases hca : strLt c a = true
  · by_cases hbc : strLt b c = true
    · exact absurd (strLt_trans b c a hbc hca) (by simp [strOrd] at h1; simp [h1])
    · have : b = c := strLt_conn b c (by simpa using hbc) h2
      subst this
      exact absurd hca (by simp [strOrd] at h1; simp [h1])
  · simpa [strOrd] using hca

theorem strOrd_antisymm : ∀ a b : Str, strOrd a b → strOrd b a → a = b := by
  intro a b h1 h2
  exact (strLt_conn b a h1 h2).symm

theorem tupLt_asymm : ∀ a b : List Str, tupLt a b = true → tupLt b a = false :=
  lexLtBy_asymm strLt_asymm

theorem tupLt_trans :
    ∀ a b c : List Str, tupLt a b = true → tupLt b c = true → tupLt a c = true :=
  lexLtBy_trans strLt_trans strLt_conn

theorem tupLt_conn :
    ∀ a b : List Str, tupLt a b = false → tupLt b a = false → a = b :=
  lexLtBy_conn strLt_conn

theorem keyRel_total (m : Bool) : ∀ a b : Key, keyRel m a b ∨ keyRel m b a := by
  intro a b
  by_cases h : tupLt (sortKeyOf m b) (sortKeyOf m a) = true
  · exact Or.inr (tupLt_asymm _ _ h)
  · exact Or.inl (by simpa [keyRel] using h)

theorem keyRel_trans (m : Bool) :
    ∀ a b c : Key, keyRel m a b → keyRel m b c → keyRel m a c := by
  intro a b c h1 h2
  unfold keyRel at h1 h2 ⊢
  by_cases hca : tupLt (sortKeyOf m c) (sortKeyOf m a) = true
  · by_cases hbc : tupLt (sortKeyOf m b) (sortKeyOf m c) = true
    · have hba := tupLt_trans _ _ _ hbc hca
      simp [hba] at h1
    · have heq : sortKeyOf m b = sortKeyOf m c :=
        tupLt_conn _ _ (by simpa using hbc) h2
      rw [← heq] at hca
      simp [hca] at h1
  · simpa using hca

/-! ### Lemmas about stripping, splitting and joining -/

theorem dropWhile_idem (p : α → Bool) (l : List α) :
    (l.dropWhile p).dropWhile p = l.dropWhile p := by
  induction l with
  | nil => rfl
  | cons a l ih =>
    by_cases h : p a = true
    · simp [List.dropWhile_cons, h, ih]
    · simp only [Bool.not_eq_true] at h
      simp [List.dropWhile_cons, h]

theorem head?_dropWhile (p : α → Bool) (l : List α) :
    ∀ c, (l.dropWhile p).head? = some c → p c = false := by
  induction l with
  | nil => intro c h; simp at h
  | cons a l ih =>
    intro c h
    by_cases ha : p a = true
    · rw [List.dropWhile_cons, if_pos ha] at h
      exact ih c h
    · simp only [Bool.not_eq_true] at ha
      rw [List.dropWhile_cons, if_neg (by simp [ha])] at h
      simp only [List.head?_cons, Option.some.injEq] at h
      subst h
      exact ha

theorem dropWhile_eq_self_of_head (p : α → Bool) (l : List α)
    (h : ∀ c, l.head? = some c → p c = false) : l.dropWhile p = l := by
  cases l with
  | nil => rfl
  | cons a l =>
    have := h a (by simp)
    simp [List.dropWhile_cons, this]

theorem dropWhile_suffix (p : α → Bool) (l : List α) :
    ∃ t, l = t ++ l.dropWhile p := by
  induction l with
  | nil => exact ⟨[], rfl⟩
  | cons a l ih =>
    by_cases h : p a = true
    · obtain ⟨t, ht⟩ := ih
      exact ⟨a :: t, by simp [List.dropWhile_cons, h, ← ht]⟩
    · simp only [Bool.not_eq_true] at h
      exact ⟨[], by simp [List.dropWhile_cons, h]⟩

theorem pyStrip_nil : pyStrip [] = [] := rfl

theorem mem_pyStrip {c : Char} {s : Str} (h : c ∈ pyStrip s) : c ∈ s := by
  unfold pyStrip at h
  rw [List.mem_reverse] at h
  have h2 := (List.dropWhile_sublist pySpace).mem h
  rw [List.mem_reverse] at h2
  exact (List.dropWhile_sublist pySpace).mem h2

theorem getLast?_dropWhile_of_ne_nil (p : α → Bool) (l : List α)
    (h : l.dropWhile p ≠ []) : (l.dropWhile p).getLast? = l.getLast? := by
  obtain ⟨t, ht⟩ := dropWhile_suffix p l
  conv_rhs => rw [ht]
  exact (List.getLast?_append_of_ne_nil t h).symm

theorem pyStrip_idem (s : Str) : pyStrip (pyStrip s) = pyStrip s := by
  unfold pyStrip
  set w := s.dropWhile pySpace with hw
  set v := w.reverse.dropWhile pySpace with hv
  have claim1 : v.reverse.dropWhile pySpace = v.reverse := by
    apply dropWhile_eq_self_of_head
    intro c hc
    rw [List.head?_reverse] at hc
    by_cases hvnil : v = []
    · rw [hvnil] at hc; simp at hc
    · rw [hv, getLast?_dropWhile_of_ne_nil pySpace w.reverse (hv ▸ hvnil)] at hc
      rw [List.getLast?_reverse] at hc
      exact head?_dropWhile pySpace s c (hw ▸ hc)
  rw [claim1, List.reverse_reverse, hv, dropWhile_idem]

theorem pyStrip_length_lt_of_head_space {c : Char} {rest : Str}
    (h : pySpace c = true) : (pyStrip (c :: rest)).length < (c :: rest).length := by
  unfold pyStrip
  rw [List.dropWhile_cons, if_pos h]
  calc ((rest.dropWhile pySpace).reverse.dropWhile pySpace).reverse.length
      ≤ (rest.dropWhile pySpace).length := by
        rw [List.length_reverse]
        calc ((rest.dropWhile pySpace).reverse.dropWhile pySpace).length
            ≤ (rest.dropWhile pySpace).reverse.length :=
              (List.dropWhile_sublist pySpace).length_le
          _ = (rest.dropWhile pySpace).length := List.length_reverse _
    _ ≤ rest.length := (List.dropWhile_sublist pySpace).length_le
    _ < (c :: rest).length := by simp

theorem head_not_space_of_pyStrip_eq {s : Str} (h : pyStrip s = s) :
    ∀ c, s.head? = some c → pySpace c = false := by
  intro c hc
  cases s with
  | nil => simp at hc
  | cons a rest =>
    simp only [List.head?_cons, Option.some.injEq] at hc
    subst hc
    by_contra hs
    simp only [Bool.not_eq_false] at hs
    have := @pyStrip_length_lt_of_head_space a rest hs
    rw [h] at this
    exact absurd this (lt_irrefl _)

theorem pyStrip_ne_nil_of_head {x : Str} {c : Char} (h : x.head? = some c)
    (hc : pySpace c = false) : pyStrip x ≠ [] := by
  cases x with
  | nil => simp at h
  | cons a r =>
    simp only [List.head?_cons, Option.some.injEq] at h
    subst h
    unfold pyStrip
    rw [List.dropWhile_cons, if_neg (by simp [hc])]
    intro hnil
    rw [List.reverse_eq_nil_iff, List.dropWhile_eq_nil_iff] at hnil
    have := hnil a (by simp)
    rw [this] at hc
    cases hc

theorem pySplitComma_ne_nil (s : Str) : pySplitComma s ≠ [] := by
  cases s with
  | nil => simp [pySplitComma]
  | cons c rest =>
    unfold pySplitComma
    by_cases h : c = ','
    · simp [h]
    · simp only [if_neg h]
      cases pySplitComma rest <;> simp

theorem mem_pySplitComma_no_comma (s : Str) :
    ∀ p ∈ pySplitComma s, ',' ∉ p := by
  induction s with
  | nil => intro p hp; simp [pySplitComma] at hp; simp [hp]
  | cons c rest ih =>
    intro p hp
    unfold pySplitComma at hp
    by_cases h : c = ','
    · rw [if_pos h] at hp
      rcases List.mem_cons.1 hp with h1 | h1
      · simp [h1]
      · exact ih p h1
    · rw [if_neg h] at hp
      cases hsplit : pySplitComma rest with
      | nil => exact absurd hsplit (pySplitComma_ne_nil rest)
      | cons q qs =>
        rw [hsplit] at hp
        rcases List.mem_cons.1 hp with h1 | h1
        · subst h1
          intro hmem
          rcases List.mem_cons.1 hmem with h2 | h2
          · exact h h2.symm
          · exact ih q (hsplit ▸ List.mem_cons_self q qs) h2
        · exact ih p (hsplit ▸ List.mem_cons_of_mem q h1)

theorem pySplitComma_no_comma_eq {t : Str} (h : ',' ∉ t) : pySplitComma t = [t] := by
  induction t with
  | nil => rfl
  | cons c rest ih =>
    unfold pySplitComma
    have hc : ¬ c = ',' := fun hc => h (hc ▸ List.mem_cons_self c rest)
    rw [if_neg hc, ih (fun hm => h (List.mem_cons_of_mem c hm))]

theorem pySplitComma_append_comma {t : Str} (r : Str) (h : ',' ∉ t) :
    pySplitComma (t ++ ',' :: r) = t :: pySplitComma r := by
  induction t with
  | nil => simp [pySplitComma]
  | cons c rest ih =>
    have hc : ¬ c = ',' := fun hc => h (hc ▸ List.mem_cons_self c rest)
    have ih2 := ih (fun hm => h (List.mem_cons_of_mem c hm))
    simp only [List.cons_append]
    simp only [pySplitComma]
    rw [if_neg hc, ih2]

theorem pySplitComma_joinComma {L : List Str} (hL : L ≠ [])
    (h : ∀ t ∈ L, ',' ∉ t) : pySplitComma (joinComma L) = L := by
  induction L with
  | nil => exact absurd rfl hL
  | cons t ts ih =>
    cases ts with
    | nil =>
      show pySplitComma (joinComma [t]) = [t]
      rw [show joinComma [t] = t from rfl]
      exact pySplitComma_no_comma_eq (h t (by simp))
    | cons t' ts' =>
      show pySplitComma (t ++ ',' :: joinComma (t' :: ts')) = t :: t' :: ts'
      rw [pySplitComma_append_comma _ (h t (by simp))]
      rw [ih (by simp) (fun u hu => h u (List.mem_cons_of_mem t hu))]

theorem joinComma_head {t : Str} (ts : List Str) {c : Char}
    (h : t.head? = some c) : (joinComma (t :: ts)).head? = some c := by
  cases t with
  | nil => simp at h
  | cons a r =>
    simp only [List.head?_cons, Option.some.injEq] at h
    subst h
    cases ts with
    | nil => simp [joinComma]
    | cons t' ts' => simp [joinComma]

theorem normalize_join_of_tokens {L : List Str}
    (hne : ∀ t ∈ L, t ≠ [])
    (hstr : ∀ t ∈ L, pyStrip t = t)
    (hnc : ∀ t ∈ L, ',' ∉ t)
    (hsort : List.Sorted strOrd L) :
    normalize_cell_value (joinComma L) = joinComma L := by
  cases L with
  | nil => rfl
  | cons t ts =>
    have htne := hne t (by simp)
    obtain ⟨c, hc⟩ : ∃ c, t.head? = some c := by
      cases t with
      | nil => exact absurd rfl htne
      | cons a r => exact ⟨a, rfl⟩
    have hcsp : pySpace c = false :=
      head_not_space_of_pyStrip_eq (hstr t (by simp)) c hc
    have hjoin_ne : pyStrip (joinComma (t :: ts)) ≠ [] :=
      pyStrip_ne_nil_of_head (joinComma_head ts hc) hcsp
    unfold normalize_cell_value
    rw [if_neg hjoin_ne]
    rw [pySplitComma_joinComma (by simp) hnc]
    have hmap : ∀ (L' : List Str), (∀ u ∈ L', pyStrip u = u) → L'.map pyStrip = L' := by
      intro L'
      induction L' with
      | nil => intro _; rfl
      | cons a l ihm =>
        intro hL'
        simp [hL' a (by simp), ihm (fun b hb => hL' b (by simp [hb]))]
    rw [hmap (t :: ts) hstr]
    have hfil : (t :: ts).filter (· ≠ []) = t :: ts := by
      apply List.filter_eq_self.mpr
      intro a ha
      simpa using hne a ha
    rw [hfil]
    rw [show pySorted (t :: ts) = t :: ts from hsort.insertionSort_eq]

/-- C3: tag-cell normalization (trim around each comma-separated token,
discard empty tokens, sort lexically, rejoin) is idempotent —
`normalize_cell_value (normalize_cell_value s) = normalize_cell_value s`
for every string — and duplicate tokens are preserved, so
`" B33, A12 ,A12"` normalizes to `"A12,A12,B33"`. -/
theorem claim_C3 :
    (∀ s : Str, normalize_cell_value (normalize_cell_value s) = normalize_cell_value s) ∧
    normalize_cell_value " B33, A12 ,A12".toList = "A12,A12,B33".toList := by
  constructor
  · intro s
    by_cases h0 : pyStrip s = []
    · have h1 : normalize_cell_value s = [] := by
        rw [normalize_cell_value, if_pos h0]
      rw [h1, normalize_cell_value, if_pos pyStrip_nil]
    · have h1 : normalize_cell_value s =
          joinComma (pySorted (((pySplitComma s).map pyStrip).filter (· ≠ []))) := by
        rw [normalize_cell_value, if_neg h0]
      set T := ((pySplitComma s).map pyStrip).filter (· ≠ []) with hT
      have hmemT : ∀ t ∈ T, t ≠ [] ∧ pyStrip t = t ∧ ',' ∉ t := by
        intro t ht
        rw [hT, List.mem_filter] at ht
        obtain ⟨hmem, hne⟩ := ht
        obtain ⟨u, hu, htu⟩ := List.mem_map.1 hmem
        refine ⟨by simpa using hne, ?_, ?_⟩
        · rw [← htu]; exact pyStrip_idem u
        · intro hcm
          rw [← htu] at hcm
          exact mem_pySplitComma_no_comma s u hu (mem_pyStrip hcm)
      haveI : IsTotal Str strOrd := ⟨strOrd_total⟩
      haveI : IsTrans Str strOrd := ⟨strOrd_trans⟩
      have hmemS : ∀ t ∈ pySorted T, t ∈ T := by
        intro t ht
        exact (List.mem_insertionSort strOrd).1 ht
      rw [h1]
      exact normalize_join_of_tokens
        (fun t ht => (hmemT t (hmemS t ht)).1)
        (fun t ht => (hmemT t (hmemS t ht)).2.1)
        (fun t ht => (hmemT t (hmemS t ht)).2.2)
        (List.sorted_insertionSort strOrd T)
  · decide

/-! ### Lemmas about the majority selection -/

theorem mem_dedupFirstAux [DecidableEq α] (l : List α) :
    ∀ (seen : List α) (a : α), a ∈ dedupFirstAux seen l ↔ a ∈ l ∧ a ∉ seen := by
  induction l with
  | nil => intro seen a; simp [dedupFirstAux]
  | cons b l ih =>
    intro seen a
    unfold dedupFirstAux
    by_cases hb : b ∈ seen
    · rw [if_pos hb, ih]
      constructor
      · rintro ⟨h1, h2⟩
        exact ⟨List.mem_cons_of_mem b h1, h2⟩
      · rintro ⟨h1, h2⟩
        rcases List.mem_cons.1 h1 with h3 | h3
        · subst h3; exact absurd hb h2
        · exact ⟨h3, h2⟩
    · rw [if_neg hb]
      constructor
      · intro h
        rcases List.mem_cons.1 h with h3 | h3
        · subst h3; exact ⟨List.mem_cons_self _ _, hb⟩
        · obtain ⟨h4, h5⟩ := (ih (b :: seen) a).1 h3
          exact ⟨List.mem_cons_of_mem b h4,
            fun hc => h5 (List.mem_cons_of_mem b hc)⟩
      · rintro ⟨h1, h2⟩
        rcases List.mem_cons.1 h1 with h3 | h3
        · subst h3; exact List.mem_cons_self _ _
        · by_cases hab : a = b
          · subst hab; exact List.mem_cons_self _ _
          · exact List.mem_cons_of_mem _ ((ih (b :: seen) a).2
              ⟨h3, fun hc => by
                rcases List.mem_cons.1 hc with h4 | h4
                · exact hab h4
                · exact h2 h4⟩)

theorem mem_dedupFirst [DecidableEq α] (l : List α) (a : α) :
    a ∈ dedupFirst l ↔ a ∈ l := by
  rw [dedupFirst, mem_dedupFirstAux]
  simp

theorem mostCommon1_fold_spec (l : List Str) (vs : List Str) :
    ∀ (b : Str × Nat), b.2 = l.count b.1 →
      let r := vs.foldl (fun b w => if b.2 < l.count w then (w, l.count w) else b) b
      r.2 = l.count r.1 ∧ b.2 ≤ r.2 ∧ (∀ w ∈ vs, l.count w ≤ r.2) ∧
        (r.1 = b.1 ∨ r.1 ∈ vs) := by
  induction vs with
  | nil =>
    intro b hb
    exact ⟨hb, le_refl _, by simp, Or.inl rfl⟩
  | cons w vs ih =>
    intro b hb
    simp only [List.foldl_cons]
    by_cases hcmp : b.2 < l.count w
    · rw [if_pos hcmp]
      obtain ⟨h1, h2, h3, h4⟩ := ih (w, l.count w) rfl
      refine ⟨h1, le_trans (le_of_lt hcmp) h2, ?_, ?_⟩
      · intro u hu
        rcases List.mem_cons.1 hu with h5 | h5
        · subst h5; exact h2
        · exact h3 u h5
      · rcases h4 with h5 | h5
        · exact Or.inr (h5 ▸ List.mem_cons_self _ _)
        · exact Or.inr (List.mem_cons_of_mem _ h5)
    · rw [if_neg hcmp]
      obtain ⟨h1, h2, h3, h4⟩ := ih b hb
      refine ⟨h1, h2, ?_, ?_⟩
      · intro u hu
        rcases List.mem_cons.1 hu with h5 | h5
        · subst h5
          exact le_trans (le_of_not_lt hcmp) h2
        · exact h3 u h5
      · rcases h4 with h5 | h5
        · exact Or.inl h5
        · exact Or.inr (List.mem_cons_of_mem _ h5)

theorem mostCommon1_spec {l : List Str} (hl : l ≠ []) :
    ∃ v c, mostCommon1 l = some (v, c) ∧ c = l.count v ∧ v ∈ l ∧
      ∀ w, l.count w ≤ c := by
  cases hd : dedupFirst l with
  | nil =>
    cases l with
    | nil => exact absurd rfl hl
    | cons a t =>
      have : a ∈ dedupFirst (a :: t) := (mem_dedupFirst _ _).2 (by simp)
      rw [hd] at this
      simp at this
  | cons v0 vs =>
    obtain ⟨h1, h2, h3, h4⟩ := mostCommon1_fold_spec l vs (v0, l.count v0) rfl
    refine ⟨_, _, ?_, h1, ?_, ?_⟩
    · rw [mostCommon1, hd]
    · have hmem : (vs.foldl (fun b w => if b.2 < l.count w then (w, l.count w) else b)
          (v0, l.count v0)).1 ∈ v0 :: vs := by
        rcases h4 with h5 | h5
        · rw [h5]; exact List.mem_cons_self _ _
        · exact List.mem_cons_of_mem _ h5
      rw [← hd] at hmem
      exact (mem_dedupFirst _ _).1 hmem
    · intro w
      by_cases hw : w ∈ l
      · have hmem : w ∈ v0 :: vs := hd ▸ (mem_dedupFirst _ _).2 hw
        rcases List.mem_cons.1 hmem with h5 | h5
        · subst h5; exact h2
        · exact h3 w h5
      · rw [List.count_eq_zero_of_not_mem hw]
        exact Nat.zero_le _

theorem count_add_count_le_length {l : List Str} {v w : Str} (hvw : v ≠ w) :
    l.count v + l.count w ≤ l.length := by
  induction l with
  | nil => simp
  | cons a t ih =>
    rw [List.count_cons, List.count_cons, List.length_cons]
    simp only [beq_iff_eq]
    by_cases hav : a = v <;> by_cases haw : a = w
    · exact absurd (hav ▸ haw) hvw
    · subst hav; rw [if_pos rfl, if_neg haw]; omega
    · subst haw; rw [if_neg hav, if_pos rfl]; omega
    · rw [if_neg hav, if_neg haw]; omega

theorem length_lt_two_mul_threshold {k : Nat} (hk : 1 ≤ k) :
    k < 2 * agreement_threshold k := by
  unfold agreement_threshold
  omega

theorem processCell_def (t : Nat) (cvs : List Str) :
    processCell t cvs =
      if t ≤ ((mostCommon1 cvs).getD ([], 0)).2 then
        (((mostCommon1 cvs).getD ([], 0)).1, 0,
          (cvs.map (fun v =>
            ((tokSet v) \ (tokSet ((mostCommon1 cvs).getD ([], 0)).1)).card)).sum,
          (cvs.map (fun v => if v ≠ [] then (pySplitComma v).length else 0)).sum)
      else ([], 1, (cvs.map (fun v => (tokSet v).card)).sum,
          (cvs.map (fun v => if v ≠ [] then (pySplitComma v).length else 0)).sum) := rfl

theorem processCell_reach {t : Nat} {l : List Str} {v : Str}
    (h2t : l.length < 2 * t) (hv : t ≤ l.count v) :
    (processCell t l).1 = v ∧ (processCell t l).2.1 = 0 := by
  have ht1 : 1 ≤ t := by
    rcases Nat.eq_zero_or_pos t with h0 | h1
    · subst h0; omega
    · exact h1
  have hvl : v ∈ l := by
    by_contra hmem
    rw [List.count_eq_zero_of_not_mem hmem] at hv
    omega
  have hlne : l ≠ [] := fun h => by subst h; simp at hvl
  obtain ⟨cv, c, hmc, hc, hcvl, hmax⟩ := mostCommon1_spec hlne
  have hct : t ≤ c := le_trans hv (hmax v)
  have hbr : t ≤ ((mostCommon1 l).getD ([], 0)).2 := by
    rw [hmc]; exact hct
  have hcv : cv = v := by
    by_contra hne
    have hsum := count_add_count_le_length hne (l := l)
    have hlen := List.count_le_length (l := l) (a := v)
    omega
  rw [processCell_def, if_pos hbr, hmc]
  exact ⟨hcv, rfl⟩

theorem processCell_no_reach {t : Nat} {l : List Str}
    (h : ∀ v, l.count v < t) :
    (processCell t l).1 = [] ∧ (processCell t l).2.1 = 1 := by
  have hbr : ¬ t ≤ ((mostCommon1 l).getD ([], 0)).2 := by
    cases hlne : l with
    | nil =>
      subst hlne
      have h0 := h []
      simp only [List.count_nil] at h0
      have hmc : mostCommon1 [] = none := rfl
      rw [hmc]
      simp only [Option.getD_none]
      omega
    | cons a tl =>
      rw [← hlne]
      obtain ⟨cv, c, hmc, hc, _, _⟩ := mostCommon1_spec (l := l) (by rw [hlne]; simp)
      rw [hmc]
      simp only [Option.getD_some]
      have hcnt := h cv
      omega
  rw [processCell_def, if_neg hbr]
  exact ⟨rfl, rfl⟩

theorem processCell_highest {t : Nat} {l : List Str}
    (h : (processCell t l).2.1 = 0) :
    t ≤ l.count (processCell t l).1 ∧
      ∀ w, l.count w ≤ l.count (processCell t l).1 := by
  by_cases hbr : t ≤ ((mostCommon1 l).getD ([], 0)).2
  · cases hlne : l with
    | nil =>
      subst hlne
      have hmc : mostCommon1 [] = none := rfl
      rw [hmc] at hbr
      simp only [Option.getD_none] at hbr
      have hout : (processCell t ([] : List Str)).1 = [] := by
        rw [processCell_def, if_pos (by rw [hmc]; simpa using hbr)]
        rw [hmc]
        rfl
      rw [hout]
      simp only [List.count_nil]
      exact ⟨hbr, fun w => le_refl 0⟩
    | cons a tl =>
      rw [← hlne]
      obtain ⟨cv, c, hmc, hc, hcvl, hmax⟩ := mostCommon1_spec (l := l) (by rw [hlne]; simp)
      have hout : (processCell t l).1 = cv := by
        rw [processCell_def, if_pos hbr, hmc]
        rfl
      rw [hout]
      rw [hmc] at hbr
      simp only [Option.getD_some] at hbr
      exact ⟨hc ▸ hbr, fun w => hc ▸ hmax w⟩
  · exfalso
    have h1 : (processCell t l).2.1 = 1 := by
      rw [processCell_def, if_neg hbr]
    omega

theorem count_perm {l l' : List Str} (h : l.Perm l') (v : Str) :
    l.count v = l'.count v := by
  induction h with
  | nil => rfl
  | cons a _ ih => rw [List.count_cons, List.count_cons, ih]
  | swap a b t =>
    rw [List.count_cons, List.count_cons, List.count_cons, List.count_cons]
    omega
  | trans _ _ ih1 ih2 => rw [ih1, ih2]

/-- C9: for a list of normalized cell values, at most one distinct value
can reach the agreement threshold `ceil(2K/3)` (two such values would
together exceed `K` occurrences), so the consensus cell computed via
`most_common(1)` is determined by the multiset of rater values alone: it
is invariant under any permutation of the cell values, independent of
rater file enumeration order and of the Counter's tie-breaking. -/
theorem claim_C9 (l l' : List Str) (hlen : 1 ≤ l.length) (hperm : l.Perm l') :
    (∀ v w, agreement_threshold l.length ≤ l.count v →
        agreement_threshold l.length ≤ l.count w → v = w) ∧
    (processCell (agreement_threshold l.length) l).1 =
      (processCell (agreement_threshold l'.length) l').1 := by
  have h2t := length_lt_two_mul_threshold hlen
  constructor
  · intro v w hv hw
    by_contra hne
    have hsum := count_add_count_le_length hne (l := l)
    omega
  · have hlen' : l'.length = l.length := hperm.length_eq.symm
    rw [hlen']
    by_cases hex : ∃ v, agreement_threshold l.length ≤ l.count v
    · obtain ⟨v, hv⟩ := hex
      have r1 := processCell_reach h2t hv
      have hv' : agreement_threshold l.length ≤ l'.count v := by
        rw [← count_perm hperm v]; exact hv
      have h2t' : l'.length < 2 * agreement_threshold l.length := by
        rw [← hperm.length_eq]; exact h2t
      have r2 := processCell_reach h2t' hv'
      rw [r1.1, r2.1]
    · push_neg at hex
      have r1 := processCell_no_reach hex
      have r2 := processCell_no_reach (l := l')
        (fun v => by rw [← count_perm hperm v]; exact hex v)
      rw [r1.1, r2.1]

/-- Witness for C9 at a concrete multiset and a reordering of it. -/
theorem claim_C9_witness :
    1 ≤ (["B1".toList, "B1".toList, "B2".toList] : List Str).length ∧
    (["B1".toList, "B1".toList, "B2".toList] : List Str).Perm
      ["B2".toList, "B1".toList, "B1".toList] ∧
    (processCell
        (agreement_threshold (["B1".toList, "B1".toList, "B2".toList] : List Str).length)
        ["B1".toList, "B1".toList, "B2".toList]).1 =
      (processCell
        (agreement_threshold (["B2".toList, "B1".toList, "B1".toList] : List Str).length)
        ["B2".toList, "B1".toList, "B1".toList]).1 :=
  ⟨by decide, by decide, (claim_C9 _ _ (by decide) (by decide)).2⟩

/-- C1: in an aggregation run over `K ≥ 3` rater files, for every composite
key and column the aggregator collects exactly one normalized cell value
per rater file (the empty string when a rater has no row for the key or
failed to load), and the consensus cell is the highest-frequency
normalized value exactly when its count reaches `ceil(2K/3)` with `K` the
number of files found; otherwise the cell is empty and the mismatch
counter is incremented by one. -/
theorem claim_C1 (isMeta : Bool) (files : List (List (List Str)))
    (key : Key) (col : Str) (hK : 3 ≤ files.length) :
    let loaded := files.map (load_and_clean_csv isMeta)
    let t := agreement_threshold files.length
    let vs := cell_values loaded key col
    let out := processCell t vs
    vs.length = files.length ∧
    (∀ v, t ≤ vs.count v → out.1 = v ∧ out.2.1 = 0) ∧
    ((∀ v, vs.count v < t) → out.1 = [] ∧ out.2.1 = 1) ∧
    (out.2.1 = 0 → t ≤ vs.count out.1 ∧ ∀ w, vs.count w ≤ vs.count out.1) := by
  intro loaded t vs out
  have hlenv : vs.length = files.length := by
    show (cell_values loaded key col).length = files.length
    rw [cell_values, List.length_map, List.length_map]
  have h2t : vs.length < 2 * t := by
    rw [hlenv]
    exact length_lt_two_mul_threshold (by omega)
  refine ⟨hlenv, ?_, ?_, ?_⟩
  · intro v hv
    exact processCell_reach h2t hv
  · intro hall
    exact processCell_no_reach hall
  · intro h0
    exact processCell_highest h0

/-- Witness for C1 on the three sample rater files. -/
theorem claim_C1_witness :
    3 ≤ sampleFiles.length ∧
    (agreement_threshold sampleFiles.length ≤
        (cell_values (sampleFiles.map (load_and_clean_csv false)) sampleKey
          sampleCol).count "B1".toList ∧
      (processCell (agreement_threshold sampleFiles.length)
          (cell_values (sampleFiles.map (load_and_clean_csv false)) sampleKey
            sampleCol)).1 = "B1".toList) :=
  ⟨by decide,
    by decide,
    ((claim_C1 false sampleFiles sampleKey sampleCol (by decide)).2.1
      "B1".toList (by decide)).1⟩

/-- C7: per aggregated cell, the total-entries counter increases by the
sum over raters of the comma-token counts of non-empty normalized cells;
the removed-entries counter increases, under consensus, by the summed
set-differences between each rater's token set and the consensus token
set and, without consensus, by the summed sizes of all raters' token
sets.  In particular on cells `B1`, `B1`, `B2` with threshold 2 the
consensus is `B1`, no mismatch is recorded, and exactly 1 entry is
removed. -/
theorem claim_C7 (t : Nat) (cvs : List Str) :
    (processCell t cvs).2.2.2 =
      sumOver cvs (fun v => if v = [] then 0 else (pySplitComma v).length) ∧
    ((processCell t cvs).2.1 = 0 →
      (processCell t cvs).2.2.1 =
        sumOver cvs (fun v => ((tokSet v) \ (tokSet (processCell t cvs).1)).card)) ∧
    ((processCell t cvs).2.1 = 1 →
      (processCell t cvs).2.2.1 = sumOver cvs (fun v => (tokSet v).card)) ∧
    (agreement_threshold 3 = 2 ∧
      processCell (agreement_threshold 3) ["B1".toList, "B1".toList, "B2".toList] =
        ("B1".toList, 0, 1, 3)) := by
  refine ⟨?_, ?_, ?_, by decide, by decide⟩
  · rw [processCell_def, sumOver]
    have harg : (fun v => if v = ([] : Str) then 0 else (pySplitComma v).length) =
        (fun v => if v ≠ ([] : Str) then (pySplitComma v).length else 0) := by
      funext v
      by_cases h : v = [] <;> simp [h]
    rw [harg]
    by_cases hbr : t ≤ ((mostCommon1 cvs).getD ([], 0)).2
    · rw [if_pos hbr]
    · rw [if_neg hbr]
  · intro h0
    by_cases hbr : t ≤ ((mostCommon1 cvs).getD ([], 0)).2
    · conv_lhs => rw [processCell_def, if_pos hbr]
      have hout : (processCell t cvs).1 = ((mostCommon1 cvs).getD ([], 0)).1 := by
        rw [processCell_def, if_pos hbr]
      rw [hout, sumOver]
    · exfalso
      have h1 : (processCell t cvs).2.1 = 1 := by
        rw [processCell_def, if_neg hbr]
      omega
  · intro h1
    by_cases hbr : t ≤ ((mostCommon1 cvs).getD ([], 0)).2
    · exfalso
      have h0 : (processCell t cvs).2.1 = 0 := by
        rw [processCell_def, if_pos hbr]
      omega
    · rw [processCell_def, if_neg hbr, sumOver]

/-- Witness for C7: the consensus branch of the removed-entries formula
evaluated on the sample cells. -/
theorem claim_C7_witness :
    (processCell 2 ["B1".toList, "B1".toList, "B2".toList]).2.1 = 0 ∧
    (processCell 2 ["B1".toList, "B1".toList, "B2".toList]).2.2.1 =
      sumOver ["B1".toList, "B1".toList, "B2".toList]
        (fun v => ((tokSet v) \
          (tokSet (processCell 2 ["B1".toList, "B1".toList, "B2".toList]).1)).card) :=
  ⟨by decide, (claim_C7 2 _).2.1 (by decide)⟩

theorem processRows_error_of_overlong (hdr keyCols : List Str) :
    ∀ rows : List (List Str), (∃ r ∈ rows, hdr.length < r.length) →
      processRows hdr keyCols rows = .error () := by
  intro rows
  induction rows with
  | nil => rintro ⟨r, hr, _⟩; simp at hr
  | cons row rest ih =>
    rintro ⟨r, hr, hlen⟩
    by_cases h1 : row.length < hdr.length
    · rw [processRows, if_pos h1]
      apply ih
      rcases List.mem_cons.1 hr with h2 | h2
      · subst h2; omega
      · exact ⟨r, h2, hlen⟩
    · by_cases h2 : hdr.length < row.length
      · rw [processRows, if_neg h1, if_pos h2]
      · rw [processRows, if_neg h1, if_neg h2]
        have hrest : ∃ r ∈ rest, hdr.length < r.length := by
          rcases List.mem_cons.1 hr with h3 | h3
          · subst h3; omega
          · exact ⟨r, h3, hlen⟩
        show (match List.mapM (fun c => dget (hdr.zip (row.map pyStrip)) c) keyCols with
          | none => Except.error ()
          | some key => do
            let tail ← processRows hdr keyCols rest
            pure ((key, hdr.zip (row.map pyStrip)) :: tail)) = Except.error ()
        rw [ih hrest]
        cases List.mapM (fun c => dget (hdr.zip (row.map pyStrip)) c) keyCols with
        | none => rfl
        | some key => rfl

theorem length_cleanHeader (hdr : List Str) :
    ((stripBOMHead hdr).map pyStrip).length = hdr.length := by
  cases hdr with
  | nil => rfl
  | cons h hs => simp [stripBOMHead]

/-- C10: a rater CSV containing any data row with more fields than the
header row loads as an empty mapping and empty header for the whole file
(the `IndexError` raised by indexing the header at the row's positions is
caught by the handler that drops the file, discarding rows already read),
while a row shorter than the header is skipped individually and the file
survives. -/
theorem claim_C10 (isMeta : Bool) (hdr : List Str) (rows : List (List Str))
    (keyCols : List Str) :
    ((∃ r ∈ rows, hdr.length < r.length) →
      load_and_clean_csv isMeta (hdr :: rows) = ([], [])) ∧
    (∀ row rest, row.length < hdr.length →
      processRows hdr keyCols (row :: rest) = processRows hdr keyCols rest) ∧
    load_and_clean_csv false overlongFile = ([], []) ∧
    load_and_clean_csv false (overlongFile.take 2) ≠ ([], []) := by
  refine ⟨?_, ?_, by decide, by decide⟩
  · intro hex
    rw [load_and_clean_csv]
    by_cases hall : (key_cols_names isMeta).all
        (· ∈ (stripBOMHead hdr).map pyStrip) = true
    · rw [if_pos hall]
      rw [processRows_error_of_overlong _ _ rows
        (by rw [length_cleanHeader]; exact hex)]
    · rw [if_neg hall]
  · intro row rest h1
    rw [processRows, if_pos h1]

/-- Witness for C10: the sample file whose second data row is overlong. -/
theorem claim_C10_witness :
    (∃ r ∈ overlongFile.drop 1, sampleHeader.length < r.length) ∧
    load_and_clean_csv false
      (sampleHeader :: overlongFile.drop 1) = ([], []) :=
  ⟨by decide,
    (claim_C10 false sampleHeader (overlongFile.drop 1) (key_cols_names false)).1
      (by decide)⟩

/-- C8: an aggregation run writes an output exactly when the results
directory exists, at least 3 rater files are found, and the union of
loaded keys is non-empty (a missing directory, fewer than 3 files, or
zero aggregate data abort before writing); and a rater file that fails to
parse is non-fatal: it contributes exactly what an empty file contributes
— an empty mapping and empty headers — and the run result is unchanged by
replacing it with an empty file. -/
theorem claim_C8 (isMeta dirExists : Bool) (files : List (List (List Str))) :
    ((create_combined_analysis isMeta dirExists files).isSome = true ↔
      (dirExists = true ∧ 3 ≤ files.length ∧
        allKeysOf (files.map (load_and_clean_csv isMeta)) ≠ [])) ∧
    (∀ (pre post : List (List (List Str))) (bad : List (List Str)),
      load_and_clean_csv isMeta bad = ([], []) →
      create_combined_analysis isMeta dirExists (pre ++ bad :: post) =
        create_combined_analysis isMeta dirExists (pre ++ [] :: post)) := by
  constructor
  · cases dirExists with
    | false =>
      rw [create_combined_analysis]
      simp
    | true =>
      rw [create_combined_analysis]
      simp only [Bool.not_true, if_neg (by simp : ¬ (false = true))]
      by_cases hk : files.length < 3
      · rw [if_pos hk]
        simp only [Option.isSome_none, Bool.false_eq_true, false_iff]
        intro hcon
        omega
      · rw [if_neg hk]
        by_cases hkeys : allKeysOf (files.map (load_and_clean_csv isMeta)) = []
        · rw [if_pos hkeys]
          simp only [Option.isSome_none, Bool.false_eq_true, false_iff]
          intro hcon
          exact hcon.2.2 hkeys
        · rw [if_neg hkeys]
          simp only [Option.isSome_some, true_iff]
          exact ⟨by simp, by omega, hkeys⟩
  · intro pre post bad hbad
    have hload : (pre ++ bad :: post).map (load_and_clean_csv isMeta) =
        (pre ++ [] :: post).map (load_and_clean_csv isMeta) := by
      rw [List.map_append, List.map_append, List.map_cons, List.map_cons, hbad]
      rfl
    have hlen : (pre ++ bad :: post).length = (pre ++ [] :: post).length := by
      simp
    rw [create_combined_analysis, create_combined_analysis, hload, hlen]

/-- Witness for C8: replacing the overlong sample file by an empty file
leaves the run result unchanged. -/
theorem claim_C8_witness :
    load_and_clean_csv false overlongFile = ([], []) ∧
    create_combined_analysis false true (sampleFiles ++ overlongFile :: []) =
      create_combined_analysis false true (sampleFiles ++ [] :: []) :=
  ⟨by decide,
    (claim_C8 false true (sampleFiles ++ overlongFile :: [])).2
      sampleFiles [] overlongFile (by decide)⟩

theorem keyRel_imp_spec (m : Bool) (a b : Key) (h : keyRel m a b) :
    specKeyLe m a b := by
  unfold specKeyLe
  cases m with
  | false =>
    simp only [keyRel, sortKeyOf, Bool.false_eq_true, if_false, tupLt, lexLtBy] at h
    by_cases h2 : strLt (a.getD 1 []) (b.getD 1 []) = true
    · exact Or.inl h2
    · have h1 : strLt (b.getD 1 []) (a.getD 1 []) = false := by
        by_contra hc
        simp only [Bool.not_eq_false] at hc
        rw [if_pos hc] at h
        simp at h
      rw [if_neg (by simp only [Bool.not_eq_true]; exact h1), if_neg h2] at h
      refine Or.inr ⟨strLt_conn _ _ (by simpa using h2) h1, ?_⟩
      by_cases h4 : strLt (a.getD 0 []) (b.getD 0 []) = true
      · exact Or.inl h4
      · have h3 : strLt (b.getD 0 []) (a.getD 0 []) = false := by
          by_contra hc
          simp only [Bool.not_eq_false] at hc
          rw [if_pos hc] at h
          simp at h
        exact Or.inr ⟨strLt_conn _ _ (by simpa using h4) h3,
          fun hco => absurd hco (by simp)⟩
  | true =>
    simp only [keyRel, sortKeyOf, if_true, tupLt, lexLtBy] at h
    by_cases h2 : strLt (a.getD 1 []) (b.getD 1 []) = true
    · exact Or.inl h2
    · have h1 : strLt (b.getD 1 []) (a.getD 1 []) = false := by
        by_contra hc
        simp only [Bool.not_eq_false] at hc
        rw [if_pos hc] at h
        simp at h
      rw [if_neg (by simp only [Bool.not_eq_true]; exact h1), if_neg h2] at h
      refine Or.inr ⟨strLt_conn _ _ (by simpa using h2) h1, ?_⟩
      by_cases h4 : strLt (a.getD 0 []) (b.getD 0 []) = true
      · exact Or.inl h4
      · have h3 : strLt (b.getD 0 []) (a.getD 0 []) = false := by
          by_contra hc
          simp only [Bool.not_eq_false] at hc
          rw [if_pos hc] at h
          simp at h
        rw [if_neg (by simp only [Bool.not_eq_true]; exact h3), if_neg h4] at h
        refine Or.inr ⟨strLt_conn _ _ (by simpa using h4) h3, fun _ => ?_⟩
        by_contra hc
        simp only [Bool.not_eq_false] at hc
        rw [if_pos hc] at h
        simp at h

theorem create_some_rows {isMeta dirExists : Bool} {files : List (List (List Str))}
    {res : RunResult}
    (h : create_combined_analysis isMeta dirExists files = some res) :
    res.rows = (keySorted isMeta (allKeysOf (files.map (load_and_clean_csv isMeta)))).map
      (fun k => (k, rowCells (files.map (load_and_clean_csv isMeta))
        (agreement_threshold files.length)
        ((finalHeadersOf isMeta (files.map (load_and_clean_csv isMeta))).filter
          (· ∉ key_cols_names isMeta)) k)) := by
  rw [create_combined_analysis] at h
  cases dirExists with
  | false => simp at h
  | true =>
    rw [if_neg (by simp)] at h
    by_cases hk : files.length < 3
    · rw [if_pos hk] at h
      cases h
    · rw [if_neg hk] at h
      by_cases hkeys : allKeysOf (files.map (load_and_clean_csv isMeta)) = []
      · rw [if_pos hkeys] at h
        cases h
      · rw [if_neg hkeys] at h
        have := Option.some.inj h
        rw [← this]

/-- C5: the combined output rows are emitted in ascending order of the
composite keys — Scenario first, then Interview ID, then Iteration for
the meta variant — and are exactly one row per key of the key union. -/
theorem claim_C5 (isMeta dirExists : Bool) (files : List (List (List Str)))
    (res : RunResult)
    (h : create_combined_analysis isMeta dirExists files = some res) :
    res.rows.map Prod.fst =
      keySorted isMeta (allKeysOf (files.map (load_and_clean_csv isMeta))) ∧
    (res.rows.map Prod.fst).Perm
      (allKeysOf (files.map (load_and_clean_csv isMeta))) ∧
    List.Sorted (specKeyLe isMeta) (res.rows.map Prod.fst) := by
  have hrows := create_some_rows h
  have hmap : res.rows.map Prod.fst =
      keySorted isMeta (allKeysOf (files.map (load_and_clean_csv isMeta))) := by
    rw [hrows, List.map_map]
    exact List.map_id _
  refine ⟨hmap, ?_, ?_⟩
  · rw [hmap]
    exact List.perm_insertionSort _ _
  · rw [hmap]
    haveI : IsTotal Key (keyRel isMeta) := ⟨keyRel_total isMeta⟩
    haveI : IsTrans Key (keyRel isMeta) := ⟨keyRel_trans isMeta⟩
    have hs := List.sorted_insertionSort (keyRel isMeta)
      (allKeysOf (files.map (load_and_clean_csv isMeta)))
    exact hs.imp (fun hab => keyRel_imp_spec isMeta _ _ hab)

/-- Witness for C5 on the three sample rater files. -/
theorem claim_C5_witness :
    (∃ res, create_combined_analysis false true sampleFiles = some res) ∧
    ((create_combined_analysis false true sampleFiles).getD
        ⟨[], [], 0, 0, 0⟩).rows.map Prod.fst =
      keySorted false (allKeysOf (sampleFiles.map (load_and_clean_csv false))) :=
  ⟨⟨((create_combined_analysis false true sampleFiles).getD ⟨[], [], 0, 0, 0⟩),
      by decide⟩,
    (claim_C5 false true sampleFiles _ (by decide)).1⟩

/-! ### Correspondence between the slice-relative search of the code and
the absolute-cursor search of the specification -/

theorem fbm_fold_rel (r : Str → Str → Nat) (t f area : Str) (c : Nat)
    (hwin : ∀ i : Nat, (area.drop i).take f.length = windowAt t f.length (c + i)) :
    ∀ (l : List Nat) (b : Nat × Int) (bs : Nat × Nat),
      bs.1 = b.1 →
      ((b.1 = 0 ∧ b.2 = -1 ∧ bs.2 = c) ∨
        (0 < b.1 ∧ ∃ j : Nat, b.2 = (j : Int) ∧ bs.2 = c + j)) →
      (l.foldl (fun x i =>
          let score := r f ((area.drop i).take f.length)
          if x.1 < score then (score, (i : Int)) else x) b).1 =
        ((l.map (c + ·)).foldl (fun x j =>
          let sc := r f (windowAt t f.length j)
          if x.1 < sc then (sc, j) else x) bs).1 ∧
      (((l.foldl (fun x i =>
          let score := r f ((area.drop i).take f.length)
          if x.1 < score then (score, (i : Int)) else x) b).1 = 0 ∧
        (l.foldl (fun x i =>
          let score := r f ((area.drop i).take f.length)
          if x.1 < score then (score, (i : Int)) else x) b).2 = -1 ∧
        ((l.map (c + ·)).foldl (fun x j =>
          let sc := r f (windowAt t f.length j)
          if x.1 < sc then (sc, j) else x) bs).2 = c) ∨
       (0 < (l.foldl (fun x i =>
          let score := r f ((area.drop i).take f.length)
          if x.1 < score then (score, (i : Int)) else x) b).1 ∧
        ∃ j : Nat, (l.foldl (fun x i =>
          let score := r f ((area.drop i).take f.length)
          if x.1 < score then (score, (i : Int)) else x) b).2 = (j : Int) ∧
        ((l.map (c + ·)).foldl (fun x j =>
          let sc := r f (windowAt t f.length j)
          if x.1 < sc then (sc, j) else x) bs).2 = c + j)) := by
  intro l
  induction l with
  | nil =>
    intro b bs h1 h2
    refine ⟨h1.symm, ?_⟩
    rcases h2 with ⟨ha, hb, hc2⟩ | ⟨ha, j, hj1, hj2⟩
    · exact Or.inl ⟨ha, hb, hc2⟩
    · exact Or.inr ⟨ha, j, hj1, hj2⟩
  | cons i l ih =>
    intro b bs h1 h2
    simp only [List.map_cons, List.foldl_cons]
    rw [hwin i]
    by_cases hlt : b.1 < r f (windowAt t f.length (c + i))
    · rw [if_pos hlt, if_pos (by rw [h1]; exact hlt)]
      apply ih
      · rfl
      · exact Or.inr ⟨by omega, i, rfl, rfl⟩
    · rw [if_neg hlt, if_neg (by rw [h1]; exact hlt)]
      exact ih b bs h1 h2

theorem fbm_eq_fragmentBest (r : Str → Str → Nat) (t f : Str) (c : Nat)
    (hf : f ≠ []) :
    (find_best_substring_match r f (t.drop c)).1 = (fragmentBest r t f c).1 ∧
    (SIMILARITY_THRESHOLD ≤ (find_best_substring_match r f (t.drop c)).1 →
      (c : Int) + (find_best_substring_match r f (t.drop c)).2.2 =
        ((fragmentBest r t f c).2 + f.length : Nat)) := by
  have hlen_area : (t.drop c).length = t.length - c := List.length_drop c t
  have hwin : ∀ i : Nat, ((t.drop c).drop i).take f.length =
      windowAt t f.length (c + i) := by
    intro i
    rw [windowAt, List.drop_drop]
  by_cases hsmall : (t.drop c).length < f.length
  · have hm : find_best_substring_match r f (t.drop c) = (0, -1, -1) := by
      rw [find_best_substring_match, if_pos (Or.inr (Or.inr hsmall))]
    have hcand : candidatePositions t f.length c = [] := by
      rw [candidatePositions, if_pos (by omega)]
    constructor
    · rw [hm, fragmentBest, hcand]
      rfl
    · intro hth
      rw [hm] at hth
      simp [SIMILARITY_THRESHOLD] at hth
  · push_neg at hsmall
    have harea_ne : t.drop c ≠ [] := by
      intro h0
      rw [h0] at hsmall
      simp only [List.length_nil, Nat.le_zero, List.length_eq_zero] at hsmall
      exact hf hsmall
    have hguard : ¬ (f = [] ∨ t.drop c = [] ∨ (t.drop c).length < f.length) := by
      push_neg
      exact ⟨hf, harea_ne, by omega⟩
    have hcode1 : (find_best_substring_match r f (t.drop c)).1 =
        ((List.range ((t.drop c).length - f.length + 1)).foldl
          (fun x i =>
            let score := r f (((t.drop c).drop i).take f.length)
            if x.1 < score then (score, (i : Int)) else x) (0, -1)).1 := by
      rw [find_best_substring_match, if_neg hguard]
    have hcode2 : (find_best_substring_match r f (t.drop c)).2.2 =
        ((List.range ((t.drop c).length - f.length + 1)).foldl
          (fun x i =>
            let score := r f (((t.drop c).drop i).take f.length)
            if x.1 < score then (score, (i : Int)) else x) (0, -1)).2 +
          (f.length : Int) := by
      rw [find_best_substring_match, if_neg hguard]
    have hspec : fragmentBest r t f c =
        (((List.range ((t.drop c).length - f.length + 1)).map (c + ·)).foldl
          (fun x j =>
            let sc := r f (windowAt t f.length j)
            if x.1 < sc then (sc, j) else x) (0, c)) := by
      rw [fragmentBest, candidatePositions, if_neg (by omega),
        show t.length - c - f.length + 1 = (t.drop c).length - f.length + 1 by omega]
    have hrel := fbm_fold_rel r t f (t.drop c) c hwin
      (List.range ((t.drop c).length - f.length + 1)) (0, -1) (0, c) rfl
      (Or.inl ⟨rfl, rfl, rfl⟩)
    constructor
    · rw [hcode1, hspec]
      exact hrel.1
    · intro hth
      rw [hcode1] at hth
      have hpos : 0 < ((List.range ((t.drop c).length - f.length + 1)).foldl
          (fun x i =>
            let score := r f (((t.drop c).drop i).take f.length)
            if x.1 < score then (score, (i : Int)) else x) (0, -1)).1 := by
        have h80 : 0 < SIMILARITY_THRESHOLD := by decide
        omega
      rcases hrel.2 with ⟨h0, _, _⟩ | ⟨_, j, hj1, hj2⟩
      · omega
      · rw [hcode2, hj1, hspec, hj2]
        push_cast
        ring

theorem seqLoop_eq_spec (r : Str → Str → Nat) (t : Str) :
    ∀ (fs : List Str) (c : Nat) (scores : List Nat),
      (∀ f ∈ fs, f ≠ []) →
      seqLoop r t fs (c : Int) scores = specSeqMatch r t fs c scores := by
  intro fs
  induction fs with
  | nil => intro c scores _; rfl
  | cons f fs ih =>
    intro c scores hne
    have hf : f ≠ [] := hne f (by simp)
    have hdrop : pyDropFrom (c : Int) t = t.drop c := by
      rw [pyDropFrom, if_pos (Int.natCast_nonneg c)]
      simp
    obtain ⟨heq1, heq2⟩ := fbm_eq_fragmentBest r t f c hf
    simp only [seqLoop, specSeqMatch]
    rw [hdrop, heq1]
    by_cases hth : (fragmentBest r t f c).1 < SIMILARITY_THRESHOLD
    · rw [if_pos hth, if_pos hth]
    · rw [if_neg hth, if_neg hth]
      have hcur := heq2 (by rw [heq1]; omega)
      rw [hcur]
      exact ih _ _ (fun g hg => hne g (List.mem_cons_of_mem f hg))

/-- C2: for a quote with an ellipsis marker and at least two surviving
fragments, the verifier's score equals the specification's ordered
sequential matching with an absolute cursor starting at 0: each fragment
is matched by sliding a window of exactly the fragment's length over the
transcript from the cursor onward, a best window below the threshold 80
fails the quote immediately with that fragment's score, a passing match
advances the cursor to the end of the matched window, and a full pass
scores the floor of the mean of the fragment scores; moreover every
window position considered for a fragment lies at or after the cursor, so
a later fragment is never matched against text preceding the end of the
previous fragment's match. -/
theorem claim_C2 (pr r : Str → Str → Nat) (quote transcript : Str)
    (hdots : containsDots quote = true)
    (h2 : 2 ≤ (fragmentsOf quote).length) :
    calculate_fuzzy_score pr r quote transcript =
      specSeqMatch r transcript (fragmentsOf quote) 0 [] ∧
    (∀ flen cursor j, j ∈ candidatePositions transcript flen cursor →
      cursor ≤ j) := by
  constructor
  · rw [calculate_fuzzy_score, if_neg (by simp [hdots])]
    have hnonempty : ∀ g ∈ fragmentsOf quote, g ≠ [] := by
      intro g hg
      have := List.of_mem_filter hg
      simpa using this
    cases hfr : fragmentsOf quote with
    | nil => rw [hfr] at h2; simp at h2
    | cons p1 rest =>
      cases rest with
      | nil => rw [hfr] at h2; simp at h2
      | cons p2 ps =>
        have hres := seqLoop_eq_spec r transcript (p1 :: p2 :: ps) 0 []
          (by rw [← hfr]; exact hnonempty)
        show seqLoop r transcript (p1 :: p2 :: ps) 0 [] =
          specSeqMatch r transcript (p1 :: p2 :: ps) 0 []
        exact_mod_cast hres
  · intro flen cursor j hj
    rw [candidatePositions] at hj
    by_cases h : transcript.length - cursor < flen
    · rw [if_pos h] at hj
      simp at hj
    · rw [if_neg h] at hj
      obtain ⟨i, _, hi⟩ := List.mem_map.1 hj
      omega

/-- Witness for C2: a two-fragment ellipsis quote matched against a
concrete transcript with a concrete similarity function. -/
theorem claim_C2_witness :
    containsDots "ab...cd".toList = true ∧
    2 ≤ (fragmentsOf "ab...cd".toList).length ∧
    calculate_fuzzy_score eqScore eqScore "ab...cd".toList "abxcd".toList =
      specSeqMatch eqScore "abxcd".toList (fragmentsOf "ab...cd".toList) 0 [] :=
  ⟨by decide, by decide,
    (claim_C2 eqScore eqScore "ab...cd".toList "abxcd".toList
      (by decide) (by decide)).1⟩

/-- Counterexample for C6 as stated: for the ellipsis quote `"a..."`
(one surviving fragment `"a"`), the verifier applies the partial-ratio
function to the fragment, not to the quote, so with a partial-ratio
function returning the query's length the score is 1 while the
single-score partial-ratio method applied to the quote returns 4. -/
theorem claim_C6_counterexample :
    containsDots "a...".toList = true ∧
    (fragmentsOf "a...".toList).length ≤ 1 ∧
    calculate_fuzzy_score lenScore eqScore "a...".toList "b".toList ≠
      lenScore "a...".toList "b".toList := by
  decide

/-- C6 (amended): for a quote containing the ellipsis marker whose
split-and-trim leaves exactly one non-empty fragment, the verifier's
score is the partial-ratio computation applied to that fragment against
the full normalized transcript; when no fragment survives, the score is
0 rather than any partial-ratio computation. -/
theorem claim_C6 (pr r : Str → Str → Nat) (quote transcript : Str)
    (hdots : containsDots quote = true) :
    (fragmentsOf quote = [] →
      calculate_fuzzy_score pr r quote transcript = 0) ∧
    (∀ p, fragmentsOf quote = [p] →
      calculate_fuzzy_score pr r quote transcript = pr p transcript) := by
  constructor
  · intro h0
    rw [calculate_fuzzy_score, if_neg (by simp [hdots]), h0]
  · intro p hp
    rw [calculate_fuzzy_score, if_neg (by simp [hdots]), hp]

/-- Witness for C6 (amended) on the quote `"a..."`. -/
theorem claim_C6_witness :
    containsDots "a...".toList = true ∧
    fragmentsOf "a...".toList = ["a".toList] ∧
    calculate_fuzzy_score lenScore eqScore "a...".toList "b".toList =
      lenScore "a".toList "b".toList :=
  ⟨by decide, by decide,
    (claim_C6 lenScore eqScore "a...".toList "b".toList (by decide)).2
      "a".toList (by decide)⟩

/-! ### Lemmas about the quotation-mark stripping loop of `normalize_text` -/

theorem mem_dropEnds {c : Char} {s : Str} (h : c ∈ dropEnds s) : c ∈ s := by
  unfold dropEnds at h
  exact (List.drop_sublist 1 s).mem ((List.dropLast_sublist _).mem h)

theorem pyStrip_length_le (s : Str) : (pyStrip s).length ≤ s.length := by
  unfold pyStrip
  rw [List.length_reverse]
  calc ((s.dropWhile pySpace).reverse.dropWhile pySpace).length
      ≤ (s.dropWhile pySpace).reverse.length := (List.dropWhile_sublist _).length_le
    _ = (s.dropWhile pySpace).length := List.length_reverse _
    _ ≤ s.length := (List.dropWhile_sublist _).length_le

theorem mem_quotePass {c : Char} :
    ∀ (ps : List (Char × Char)) (s : Str), c ∈ (quotePass ps s).1 → c ∈ s := by
  intro ps
  induction ps with
  | nil => intro s h; exact h
  | cons p ps ih =>
    intro s h
    obtain ⟨l, r⟩ := p
    rw [quotePass] at h
    by_cases hm : s.head? = some l ∧ s.getLast? = some r
    · rw [if_pos hm] at h
      exact mem_dropEnds (mem_pyStrip (ih _ h))
    · rw [if_neg hm] at h
      exact ih s h

theorem quotePass_false_eq :
    ∀ (ps : List (Char × Char)) (s s' : Str),
      quotePass ps s = (s', false) → s' = s := by
  intro ps
  induction ps with
  | nil => intro s s' h; cases h; rfl
  | cons p ps ih =>
    intro s s' h
    obtain ⟨l, r⟩ := p
    rw [quotePass] at h
    by_cases hm : s.head? = some l ∧ s.getLast? = some r
    · rw [if_pos hm] at h
      cases h
    · rw [if_neg hm] at h
      exact ih s s' h

theorem quotePass_length_le :
    ∀ (ps : List (Char × Char)) (s : Str), (quotePass ps s).1.length ≤ s.length := by
  intro ps
  induction ps with
  | nil => intro s; exact le_refl _
  | cons p ps ih =>
    intro s
    obtain ⟨l, r⟩ := p
    rw [quotePass]
    by_cases hm : s.head? = some l ∧ s.getLast? = some r
    · rw [if_pos hm]
      calc (quotePass ps (pyStrip (dropEnds s))).1.length
          ≤ (pyStrip (dropEnds s)).length := ih _
        _ ≤ (dropEnds s).length := pyStrip_length_le _
        _ ≤ s.length := by
            unfold dropEnds
            calc (s.drop 1).dropLast.length ≤ (s.drop 1).length :=
                (List.dropLast_sublist _).length_le
              _ ≤ s.length := (List.drop_sublist _ _).length_le
    · rw [if_neg hm]
      exact ih s

theorem quotePass_length_lt :
    ∀ (ps : List (Char × Char)) (s s' : Str),
      quotePass ps s = (s', true) → s'.length < s.length := by
  intro ps
  induction ps with
  | nil => intro s s' h; cases h
  | cons p ps ih =>
    intro s s' h
    obtain ⟨l, r⟩ := p
    rw [quotePass] at h
    by_cases hm : s.head? = some l ∧ s.getLast? = some r
    · rw [if_pos hm] at h
      have hne : s ≠ [] := by
        intro h0
        rw [h0] at hm
        simp at hm
      have hlen1 : 1 ≤ s.length := by
        cases s with
        | nil => exact absurd rfl hne
        | cons a t => simp
      have hde : (dropEnds s).length ≤ s.length - 2 := by
        unfold dropEnds
        have h1 : (s.drop 1).length = s.length - 1 := List.length_drop 1 s
        have h2 : (s.drop 1).dropLast.length = (s.drop 1).length - 1 :=
          List.length_dropLast _
        omega
      have hs' : s' = (quotePass ps (pyStrip (dropEnds s))).1 := by
        have := congrArg Prod.fst h
        exact this.symm
      rw [hs']
      calc (quotePass ps (pyStrip (dropEnds s))).1.length
          ≤ (pyStrip (dropEnds s)).length := quotePass_length_le _ _
        _ ≤ (dropEnds s).length := pyStrip_length_le _
        _ ≤ s.length - 2 := hde
        _ < s.length := by omega
    · rw [if_neg hm] at h
      exact ih s s' h

theorem quotePass_trimmed :
    ∀ (ps : List (Char × Char)) (s : Str), pyStrip s = s →
      pyStrip (quotePass ps s).1 = (quotePass ps s).1 := by
  intro ps
  induction ps with
  | nil => intro s h; exact h
  | cons p ps ih =>
    intro s h
    obtain ⟨l, r⟩ := p
    rw [quotePass]
    by_cases hm : s.head? = some l ∧ s.getLast? = some r
    · rw [if_pos hm]
      exact ih _ (pyStrip_idem _)
    · rw [if_neg hm]
      exact ih s h

theorem mem_quoteLoopFuel {c : Char} :
    ∀ (n : Nat) (s : Str), c ∈ quoteLoopFuel n s → c ∈ s := by
  intro n
  induction n with
  | zero => intro s h; exact h
  | succ n ih =>
    intro s h
    rw [quoteLoopFuel] at h
    by_cases hlen : 2 ≤ s.length
    · rw [if_pos hlen] at h
      cases hq : quotePass quote_pairs s with
      | mk s' changed =>
        rw [hq] at h
        cases changed with
        | true =>
          have := ih s' h
          have hsub : c ∈ (quotePass quote_pairs s).1 := by rw [hq]; exact this
          exact mem_quotePass _ _ hsub
        | false =>
          have hsub : c ∈ (quotePass quote_pairs s).1 := by rw [hq]; exact h
          exact mem_quotePass _ _ hsub
    · rw [if_neg hlen] at h
      exact h

theorem quoteLoopFuel_trimmed :
    ∀ (n : Nat) (s : Str), pyStrip s = s →
      pyStrip (quoteLoopFuel n s) = quoteLoopFuel n s := by
  intro n
  induction n with
  | zero => intro s h; exact h
  | succ n ih =>
    intro s h
    rw [quoteLoopFuel]
    by_cases hlen : 2 ≤ s.length
    · rw [if_pos hlen]
      cases hq : quotePass quote_pairs s with
      | mk s' changed =>
        have hs' : pyStrip s' = s' := by
          have := quotePass_trimmed quote_pairs s h
          rw [hq] at this
          exact this
        cases changed with
        | true => exact ih s' hs'
        | false => exact hs'
    · rw [if_neg hlen]
      exact h

theorem quoteLoopFuel_eq :
    ∀ (k : Nat) (s : Str), s.length ≤ k →
      ∀ (n m : Nat), s.length < n → s.length < m →
        quoteLoopFuel n s = quoteLoopFuel m s := by
  intro k
  induction k with
  | zero =>
    intro s hk n m hn hm
    cases n with
    | zero => omega
    | succ n =>
      cases m with
      | zero => omega
      | succ m =>
        rw [quoteLoopFuel, quoteLoopFuel]
        have : ¬ 2 ≤ s.length := by omega
        rw [if_neg this, if_neg this]
  | succ k ih =>
    intro s hk n m hn hm
    cases n with
    | zero => omega
    | succ n =>
      cases m with
      | zero => omega
      | succ m =>
        rw [quoteLoopFuel, quoteLoopFuel]
        by_cases hlen : 2 ≤ s.length
        · rw [if_pos hlen, if_pos hlen]
          cases hq : quotePass quote_pairs s with
          | mk s' changed =>
            cases changed with
            | true =>
              have hlt := quotePass_length_lt quote_pairs s s' hq
              exact ih s' (by omega) n m (by omega) (by omega)
            | false => rfl
        · rw [if_neg hlen, if_neg hlen]
    
theorem quoteLoopFuel_exit :
    ∀ (n : Nat) (s : Str), s.length < n →
      (quoteLoopFuel n s).length < 2 ∨
        quotePass quote_pairs (quoteLoopFuel n s) = (quoteLoopFuel n s, false) := by
  intro n
  induction n with
  | zero => intro s h; omega
  | succ n ih =>
    intro s hn
    rw [quoteLoopFuel]
    by_cases hlen : 2 ≤ s.length
    · rw [if_pos hlen]
      cases hq : quotePass quote_pairs s with
      | mk s' changed =>
        cases changed with
        | true =>
          have hlt := quotePass_length_lt quote_pairs s s' hq
          exact ih s' (by omega)
        | false =>
          have hs' : s' = s := quotePass_false_eq quote_pairs s s' hq
          subst hs'
          exact Or.inr hq
    · rw [if_neg hlen]
      exact Or.inl (by omega)

theorem quoteLoop_idem (s : Str) : quoteLoop (quoteLoop s) = quoteLoop s := by
  have hexit := quoteLoopFuel_exit (s.length + 1) s (by omega)
  rw [quoteLoop, quoteLoop]
  rcases hexit with hshort | hstable
  · rw [quoteLoopFuel]
    rw [if_neg (by omega)]
  · rw [quoteLoopFuel]
    by_cases hlen : 2 ≤ (quoteLoopFuel (s.length + 1) s).length
    · rw [if_pos hlen, hstable]
    · rw [if_neg hlen]

theorem mem_replaceChar {c a b : Char} {l : Str} (h : c ∈ replaceChar a b l) :
    c = b ∨ c ∈ l := by
  unfold replaceChar at h
  obtain ⟨x, hx, hxc⟩ := List.mem_map.1 h
  by_cases hxa : x = a
  · rw [if_pos hxa] at hxc
    exact Or.inl hxc.symm
  · rw [if_neg hxa] at hxc
    exact Or.inr (hxc ▸ hx)

theorem replaceChar_eq_self {a : Char} (b : Char) {l : Str} (h : a ∉ l) :
    replaceChar a b l = l := by
  unfold replaceChar
  induction l with
  | nil => rfl
  | cons x t ih =>
    have hxa : ¬ x = a := fun hx => h (hx ▸ List.mem_cons_self x t)
    simp only [List.map_cons, if_neg hxa]
    rw [ih (fun hm => h (List.mem_cons_of_mem x hm))]

theorem not_mem_replaceChar {c a b : Char} {l : Str} (h1 : c ∉ l) (h2 : c ≠ b) :
    c ∉ replaceChar a b l := by
  intro hm
  rcases mem_replaceChar hm with h | h
  · exact h2 h
  · exact h1 h

theorem not_mem_replaceChar_self {a b : Char} (hab : a ≠ b) (l : Str) :
    a ∉ replaceChar a b l := by
  intro hm
  unfold replaceChar at hm
  obtain ⟨x, _, hxc⟩ := List.mem_map.1 hm
  by_cases hxa : x = a
  · rw [if_pos hxa] at hxc
    exact hab hxc.symm
  · rw [if_neg hxa] at hxc
    exact hxa (hxc ▸ rfl)

theorem not_mem_filter_self (a : Char) (l : Str) : a ∉ l.filter (· ≠ a) := by
  intro hm
  have := (List.mem_filter.1 hm).2
  simp at this

theorem normalize_text_def (cell : Str) :
    normalize_text cell =
      if cell = [] then []
      else
        replaceChar '‘' '\'' (replaceChar '’' '\'' (replaceChar '“' '"'
          (replaceChar '”' '"'
            (quoteLoop (pyStrip (replaceChar '\xa0' ' ' (replaceChar '\n' ' '
              ((html_unescape cell).filter (· ≠ '\x0d'))))))))) := rfl

/-- Counterexample for C4 as stated: on the input `“x"` (curly left
quote, x, straight right quote) the first normalization pass strips no
quotes but canonicalizes the curly quote, producing `"x"`; a second pass
then strips the newly matching straight pair, so the normalization is not
idempotent. -/
theorem claim_C4_counterexample :
    normalize_text (normalize_text "“x\"".toList) ≠
      normalize_text "“x\"".toList := by
  decide

/-- C4 (amended): the verifier's text normalization is idempotent on
every string that contains no ampersand (whose HTML entity decoding can
otherwise decode twice) and no curly quotation mark (whose final
canonicalization to straight quotes can otherwise create a freshly
strippable quote pair for a second pass). -/
theorem claim_C4 (s : Str) (hamp : '&' ∉ s) (hcq1 : '“' ∉ s)
    (hcq2 : '”' ∉ s) (hcq3 : '‘' ∉ s) (hcq4 : '’' ∉ s) :
    normalize_text (normalize_text s) = normalize_text s := by
  by_cases hnil : s = []
  · subst hnil; rfl
  · have hus : html_unescape s = s := by rw [html_unescape, if_neg hamp]
    set w : Str := pyStrip (replaceChar '\xa0' ' ' (replaceChar '\n' ' '
      (s.filter (· ≠ '\x0d')))) with hw
    set y : Str := quoteLoop w with hy
    have hmemy : ∀ c, c ∈ y → c = ' ' ∨ c ∈ s := by
      intro c hc
      rw [hy, quoteLoop] at hc
      have hcw : c ∈ w := mem_quoteLoopFuel _ _ hc
      rw [hw] at hcw
      have h1 := mem_pyStrip hcw
      rcases mem_replaceChar h1 with h2 | h2
      · exact Or.inl h2
      rcases mem_replaceChar h2 with h3 | h3
      · exact Or.inl h3
      · exact Or.inr (List.mem_filter.1 h3).1
    have hns : ∀ (c : Char), c ≠ ' ' → c ∉ s → c ∉ y := by
      intro c hc1 hc2 hm
      rcases hmemy c hm with h | h
      · exact hc1 h
      · exact hc2 h
    have hy1 : '“' ∉ y := hns _ (by decide) hcq1
    have hy2 : '”' ∉ y := hns _ (by decide) hcq2
    have hy3 : '‘' ∉ y := hns _ (by decide) hcq3
    have hy4 : '’' ∉ y := hns _ (by decide) hcq4
    have hampy : '&' ∉ y := hns _ (by decide) hamp
    have hCRy : '\x0d' ∉ y := by
      intro hm
      rw [hy, quoteLoop] at hm
      have hcw : '\x0d' ∈ w := mem_quoteLoopFuel _ _ hm
      rw [hw] at hcw
      have h1 := mem_pyStrip hcw
      have h2 := not_mem_replaceChar (l := replaceChar '\n' ' '
        (s.filter (· ≠ '\x0d'))) (a := '\xa0') (b := ' ')
        (not_mem_replaceChar (a := '\n') (b := ' ')
          (not_mem_filter_self '\x0d' s) (by decide)) (by decide)
      exact h2 h1
    have hNLy : '\n' ∉ y := by
      intro hm
      rw [hy, quoteLoop] at hm
      have hcw : '\n' ∈ w := mem_quoteLoopFuel _ _ hm
      rw [hw] at hcw
      have h1 := mem_pyStrip hcw
      have h2 := not_mem_replaceChar (a := '\xa0') (b := ' ')
        (not_mem_replaceChar_self (a := '\n') (b := ' ') (by decide)
          (s.filter (· ≠ '\x0d'))) (by decide)
      exact h2 h1
    have hNBy : '\xa0' ∉ y := by
      intro hm
      rw [hy, quoteLoop] at hm
      have hcw : '\xa0' ∈ w := mem_quoteLoopFuel _ _ hm
      rw [hw] at hcw
      have h1 := mem_pyStrip hcw
      exact not_mem_replaceChar_self (a := '\xa0') (b := ' ') (by decide) _ h1
    have htrim : pyStrip y = y := by
      rw [hy, quoteLoop]
      exact quoteLoopFuel_trimmed _ _ (by rw [hw]; exact pyStrip_idem _)
    have hfin : replaceChar '‘' '\'' (replaceChar '’' '\'' (replaceChar '“' '"'
        (replaceChar '”' '"' y))) = y := by
      rw [replaceChar_eq_self _ hy2, replaceChar_eq_self _ hy1,
        replaceChar_eq_self _ hy4, replaceChar_eq_self _ hy3]
    have hnts : normalize_text s = y := by
      rw [normalize_text_def, if_neg hnil, hus, ← hw, ← hy, hfin]
    rw [hnts]
    by_cases hynil : y = []
    · rw [hynil]; rfl
    · have husy : html_unescape y = y := by rw [html_unescape, if_neg hampy]
      have hfil : y.filter (· ≠ '\x0d') = y := by
        apply List.filter_eq_self.mpr
        intro c hc
        simp only [ne_eq, decide_not, Bool.not_eq_true', decide_eq_false_iff_not]
        intro hccr
        exact hCRy (hccr ▸ hc)
      have hyy : quoteLoop y = y := by
        rw [hy]
        exact quoteLoop_idem w
      rw [normalize_text_def, if_neg hynil, husy, hfil,
        replaceChar_eq_self _ hNLy, replaceChar_eq_self _ hNBy, htrim, hyy, hfin]

/-- Witness for C4 (amended) on a concrete ampersand-free, curly-free
string. -/
theorem claim_C4_witness :
    ('&' ∉ " \"a b\" ".toList ∧ '“' ∉ " \"a b\" ".toList ∧
      '”' ∉ " \"a b\" ".toList ∧ '‘' ∉ " \"a b\" ".toList ∧
      '’' ∉ " \"a b\" ".toList) ∧
    normalize_text (normalize_text " \"a b\" ".toList) =
      normalize_text " \"a b\" ".toList :=
  ⟨⟨by decide, by decide, by decide, by decide, by decide⟩,
    claim_C4 " \"a b\" ".toList (by decide) (by decide) (by decide)
      (by decide) (by decide)⟩
